import Mathlib

set_option maxHeartbeats 1000000

/-
Verification of the in-memory Redis-imitation engine: a shallow embedding of
the TTL AVL cache (`src/cache/avlcache.rs`), the transactional storage engine
(`src/storage/memory.rs`), the Raft log store (`src/cluster/log_store.rs`) and
the Raft per-node state (`src/cluster/state.rs`), together with proofs and
refutations of the specified properties.

Modelling conventions:
- `Instant` / wall-clock readings are modelled by an explicit `now : Nat`
  argument supplied to every operation that reads the clock in the source;
  `Duration` values are naturals in the same unit.  `Instant::duration_since`
  saturates at zero, which truncated `Nat` subtraction models exactly.
- Rust `u64` / `usize` values are `Nat`, `i32` / `i64` are `Int`; no operation
  proved about here can overflow or underflow them on reachable states.
- `HashMap` fields are modelled as functions to `Option`, `Vec` / `VecDeque`
  as `List`.  File I/O and `bincode` serialization are elided: the in-memory
  effect of each operation is kept, and snapshot payloads are stored
  unserialized.
-/

/-- Cache tree node, modelling `Option<Box<Node<K,V>>>` from
`src/cache/avlcache.rs` (`nil` is `None`).  `height` is the stored `i32`
height field of `Node`; `timestamp` models the `Instant` field as a logical
clock value. -/
inductive AVLTree (K V : Type) : Type
  | nil : AVLTree K V
  | node (key : K) (value : V) (left right : AVLTree K V)
      (height : Int) (timestamp : Nat) : AVLTree K V
deriving DecidableEq

namespace AVLTree

variable {K V : Type}

/-- `Node::height` read through `Option::map_or(0, |n| n.height())`:
stored height of the root node, `0` for an absent tree. -/
def height : AVLTree K V → Int
  | nil => 0
  | node _ _ _ _ h _ => h

/-- `Node::balance_factor`: difference of the stored heights of the children
(`0` on the absent tree, on which the source never calls it). -/
def balance_factor : AVLTree K V → Int
  | nil => 0
  | node _ _ l r _ _ => l.height - r.height

/-- `Node::update_height`: recompute the stored height from the children's
stored heights. -/
def update_height : AVLTree K V → AVLTree K V
  | nil => nil
  | node k v l r _ ts => node k v l r (1 + max l.height r.height) ts

/-- `AVLCache::rotate_left`.  The source `unwrap`s the right child; on a tree
without one (which the source never produces at a call site) the model
returns the tree unchanged. -/
def rotate_left : AVLTree K V → AVLTree K V
  | node k v l (node rk rv rl rr rh rts) h ts =>
      let n := update_height (node k v l rl h ts)
      update_height (node rk rv n rr rh rts)
  | t => t

/-- `AVLCache::rotate_right`, mirror image of `rotate_left`. -/
def rotate_right : AVLTree K V → AVLTree K V
  | node k v (node lk lv ll lr lh lts) r h ts =>
      let n := update_height (node k v lr r h ts)
      update_height (node lk lv ll n lh lts)
  | t => t

/-- `AVLCache::balance`: update the height, then apply the single/double
rotation dictated by the stored balance factor. -/
def balance (t0 : AVLTree K V) : AVLTree K V :=
  match update_height t0 with
  | nil => nil
  | node k v l r h ts =>
      let b := l.height - r.height
      if 1 < b then
        let l' := if l.balance_factor < 0 then rotate_left l else l
        rotate_right (node k v l' r h ts)
      else if b < -1 then
        let r' := if 0 < r.balance_factor then rotate_right r else r
        rotate_left (node k v l r' h ts)
      else node k v l r h ts

variable [LinearOrder K] [DecidableEq K]

/-- `AVLCache::get_node`, returning the found node's `(value, timestamp)`. -/
def get_node : AVLTree K V → K → Option (V × Nat)
  | nil, _ => none
  | node k v l r _ ts, key =>
      if key = k then some (v, ts)
      else if key < k then get_node l key
      else get_node r key

/-- `AVLCache::insert_helper`.  The source threads `self.size` through the
recursion (incrementing it exactly when a fresh node is created); the model
passes it explicitly and returns the updated value. -/
def insert_helper (size : Nat) (t : AVLTree K V) (now : Nat) (key : K) (value : V) :
    Nat × AVLTree K V :=
  match t with
  | nil => (size + 1, node key value nil nil 1 now)
  | node k v l r h _ts =>
      if key = k then (size, balance (node k value l r h now))
      else if key < k then
        let p := insert_helper size l now key value
        (p.1, balance (node k v p.2 r h _ts))
      else
        let p := insert_helper size r now key value
        (p.1, balance (node k v l p.2 h _ts))

/-- `AVLCache::remove_min`, taking the fields of the (necessarily present)
node apart as the source's `Box<Node>` argument does.  Returns the tree with
the leftmost node removed and that node's `(key, value, timestamp)`.  Note
that, as in the source, no height update or rebalance happens on the way
back up. -/
def remove_min (k : K) (v : V) (l r : AVLTree K V) (h : Int) (ts : Nat) :
    AVLTree K V × (K × V × Nat) :=
  match l with
  | nil => (r, (k, v, ts))
  | node lk lv ll lr lh lts =>
      let p := remove_min lk lv ll lr lh lts
      (node k v p.1 r h ts, p.2)

/-- `AVLCache::remove_recursive`. -/
def remove_recursive : AVLTree K V → K → AVLTree K V × Option V
  | nil, _ => (nil, none)
  | node k v l r h ts, key =>
      if key = k then
        match l, r with
        | nil, r' => (r', some v)
        | l', nil => (l', some v)
        | l', node rk rv rl rr rh rts =>
            let p := remove_min rk rv rl rr rh rts
            (balance (node p.2.1 p.2.2.1 l' p.1 h p.2.2.2), some v)
      else if key < k then
        let p := remove_recursive l key
        (balance (node k v p.1 r h ts), p.2)
      else
        let p := remove_recursive r key
        (balance (node k v l p.1 h ts), p.2)

/-- The inner `min_node` of `AVLCache::min`: leftmost `(key, value)`. -/
def min_entry : AVLTree K V → Option (K × V)
  | nil => none
  | node k v l _ _ _ =>
      match min_entry l with
      | none => some (k, v)
      | some p => some p

/-- Actual height of the tree (spec notion: height of a missing child is 0). -/
def real_height : AVLTree K V → Nat
  | nil => 0
  | node _ _ l r _ _ => 1 + max l.real_height r.real_height

/-- Spec notion: at every node the actual heights of the two subtrees differ
by at most 1. -/
def well_balanced : AVLTree K V → Bool
  | nil => true
  | node _ _ l r _ _ =>
      (max l.real_height r.real_height - min l.real_height r.real_height ≤ 1 : Bool)
        && l.well_balanced && r.well_balanced

/-- The multiset of `(key, value, timestamp)` entries stored in the tree. -/
def entries : AVLTree K V → Multiset (K × V × Nat)
  | nil => 0
  | node k v l r _ ts => entries l + {(k, v, ts)} + entries r

/-- Number of nodes stored in the tree. -/
def count (t : AVLTree K V) : Nat := (entries t).card

/-- Binary-search-tree ordering of the keys. -/
def Ordered : AVLTree K V → Prop
  | nil => True
  | node k _ l r _ _ =>
      (∀ x ∈ entries l, x.1 < k) ∧ (∀ x ∈ entries r, k < x.1) ∧
        Ordered l ∧ Ordered r

end AVLTree

/-- `AVLCache` from `src/cache/avlcache.rs`: root tree, capacity bound,
tracked size, and time-to-live. -/
structure AVLCache (K V : Type) : Type where
  root : AVLTree K V
  capacity : Nat
  size : Nat
  ttl : Nat
deriving DecidableEq

namespace AVLCache

variable {K V : Type} [LinearOrder K] [DecidableEq K]

/-- `AVLCache::new`. -/
def new (capacity ttl : Nat) : AVLCache K V :=
  { root := AVLTree.nil, capacity := capacity, size := 0, ttl := ttl }

/-- `AVLCache::contains_key`. -/
def contains_key (c : AVLCache K V) (key : K) : Bool :=
  (c.root.get_node key).isSome

/-- `AVLCache::remove`: remove the key if present, decrementing `size` when a
value was removed; returns the prior value alongside the new cache. -/
def remove (c : AVLCache K V) (key : K) : Option V × AVLCache K V :=
  let p := c.root.remove_recursive key
  match p.2 with
  | some v => (some v, { c with root := p.1, size := c.size - 1 })
  | none => (none, { c with root := p.1 })

/-- `AVLCache::put`: evict the minimum key when full and the key is fresh,
then insert, then clamp `size` to `capacity` when the key was fresh. -/
def put (c : AVLCache K V) (now : Nat) (key : K) (value : V) : AVLCache K V :=
  let contains := c.contains_key key
  let c1 :=
    if c.size = c.capacity ∧ contains = false then
      match c.root.min_entry with
      | some p => (c.remove p.1).2
      | none => c
    else c
  let p := AVLTree.insert_helper c1.size c1.root now key value
  let c2 := { c1 with root := p.2, size := p.1 }
  if contains = false then { c2 with size := Nat.min c2.size c2.capacity } else c2

/-- `AVLCache::get`: a fresh hit returns the value and reinserts it with the
current timestamp; an expired hit removes the entry and reports absence. -/
def get (c : AVLCache K V) (now : Nat) (key : K) : Option V × AVLCache K V :=
  match c.root.get_node key with
  | some (v, ts) =>
      if now - ts < c.ttl then
        (some v, c.put now key v)
      else
        (none, (c.remove key).2)
  | none => (none, c)

/-- `AVLCache::clear`. -/
def clear (c : AVLCache K V) : AVLCache K V :=
  { c with root := AVLTree.nil, size := 0 }

end AVLCache

/-! ## Decimal representation and parsing

Models of `i64::to_string` and `str::parse::<i64>` from the standard library,
used by `MemoryStorage::incr` / `decr`. -/

/-- Digit list of `n` in base 10, most significant first; `fuel` bounds the
recursion depth and is sufficient whenever `n < 10 ^ fuel`. -/
def natDigits : Nat → Nat → List Char
  | 0, _ => []
  | fuel + 1, n =>
      if n < 10 then [Nat.digitChar n]
      else natDigits fuel (n / 10) ++ [Nat.digitChar (n % 10)]

/-- `i64::to_string`: the usual decimal representation, with a leading `-`
for negative values. -/
def i64_to_string (i : Int) : String :=
  if i < 0 then String.mk ('-' :: natDigits (i.natAbs + 1) i.natAbs)
  else String.mk (natDigits (i.toNat + 1) i.toNat)

/-- Numeric value of a digit string (used by the parser below). -/
def digitsVal (cs : List Char) : Nat :=
  cs.foldl (fun a c => 10 * a + (c.toNat - 48)) 0

/-- Parse a non-empty all-digit character list. -/
def parseNatDigits (cs : List Char) : Option Nat :=
  if cs = [] then none
  else if cs.all Char.isDigit then some (digitsVal cs)
  else none

/-- The signed value denoted by a sign flag and a digit value. -/
def int_of_sign (neg : Bool) (m : Nat) : Int :=
  if neg then -(m : Int) else (m : Int)

/-- Body of the `i64` parser after the sign has been stripped: digits, then
the `i64` range check (the source detects overflow while accumulating;
accumulating exactly and range-checking accepts the same strings). -/
def parse_i64_core (neg : Bool) (body : List Char) : Option Int :=
  match parseNatDigits body with
  | none => none
  | some m =>
      if -(2 ^ 63) ≤ int_of_sign neg m ∧ int_of_sign neg m < 2 ^ 63 then
        some (int_of_sign neg m)
      else none

/-- `str::parse::<i64>` on a character list: optional sign, decimal digits,
`i64` range check. -/
def parse_i64_chars : List Char → Option Int
  | [] => parse_i64_core false []
  | c :: rest =>
      if c = '-' then parse_i64_core true rest
      else if c = '+' then parse_i64_core false rest
      else parse_i64_core false (c :: rest)

/-- `str::parse::<i64>`. -/
def parse_i64 (s : String) : Option Int :=
  parse_i64_chars s.data

/-- `str::to_lowercase` as applied to keys; on the ASCII keys the engine is
specified for this is per-character ASCII lowercasing. -/
def lowercase (s : String) : String :=
  String.mk (s.data.map Char.toLower)

/-! ## The storage engine (`src/storage/memory.rs`) -/

/-- Insertion into a `HashMap` modelled as a function to `Option`. -/
def mapInsert {α : Type} (m : String → Option α) (k : String) (v : α) :
    String → Option α :=
  fun x => if x = k then some v else m x

/-- Removal from a `HashMap` modelled as a function to `Option`. -/
def mapRemove {α : Type} (m : String → Option α) (k : String) :
    String → Option α :=
  fun x => if x = k then none else m x

/-- `TransactionLayer`: overlay maps for strings and lists; an entry mapped
to `none` is a tombstone. -/
structure TransactionLayer : Type where
  strings : String → Option (Option String)
  lists : String → Option (Option (List String))

/-- The empty transaction layer pushed by `start_transaction`. -/
def TransactionLayer.empty : TransactionLayer :=
  { strings := fun _ => none, lists := fun _ => none }

/-- `MemoryStorage`: copy-on-write base tables, transaction stack and TTL
cache.  The `Arc` copy-on-write wrappers have no observable effect on values
and are dropped; `transaction_stack` is kept with the Vec's top (its last
element) as the HEAD of the list, so `Vec::push` is `cons`, `Vec::last_mut`
is the head, and `iter().rev()` is left-to-right list order. -/
structure MemoryStorage : Type where
  strings : String → Option String
  lists : String → Option (List String)
  transaction_stack : List TransactionLayer
  cache : AVLCache String String

namespace MemoryStorage

/-- `MemoryStorage::new`. -/
def new : MemoryStorage :=
  { strings := fun _ => none
    lists := fun _ => none
    transaction_stack := []
    cache := AVLCache.new 1000 300 }

/-- `MemoryStorage::start_transaction`. -/
def start_transaction (s : MemoryStorage) : MemoryStorage :=
  { s with transaction_stack := TransactionLayer.empty :: s.transaction_stack }

/-- `MemoryStorage::rollback_transaction`: pop the top layer and clear the
cache, or fail when no transaction is active. -/
def rollback_transaction (s : MemoryStorage) : Except String MemoryStorage :=
  match s.transaction_stack with
  | [] => .error "No active transaction to rollback"
  | _ :: rest => .ok { s with transaction_stack := rest, cache := s.cache.clear }

/-- `MemoryStorage::set`. -/
def set (s : MemoryStorage) (now : Nat) (key value : String) : MemoryStorage :=
  let key := lowercase key
  let s1 :=
    match s.transaction_stack with
    | layer :: rest =>
        { s with transaction_stack :=
            { layer with strings := mapInsert layer.strings key (some value) } :: rest }
    | [] => { s with strings := mapInsert s.strings key value }
  { s1 with cache := s1.cache.put now key value }

/-- `MemoryStorage::get`: consult the cache, then the transaction stack top
to bottom (`.cloned().flatten()` makes a tombstone fall through to lower
layers), then the base table; cache any value found. -/
def get (s : MemoryStorage) (now : Nat) (key : String) :
    Option String × MemoryStorage :=
  let key := lowercase key
  let hit := s.cache.get now key
  match hit.1 with
  | some v => (some v, { s with cache := hit.2 })
  | none =>
      let result :=
        (s.transaction_stack.findSome? fun layer => (layer.strings key).join).orElse
          fun _ => s.strings key
      match result with
      | some v => (some v, { s with cache := hit.2.put now key v })
      | none => (none, { s with cache := hit.2 })

/-- `MemoryStorage::del`: inside a transaction, write tombstones into both
overlays and report success; outside, remove from the base tables through the
short-circuiting `||` of the source (the list-table removal is only attempted
when the string-table removal found nothing).  On success the key is removed
from the cache. -/
def del (s : MemoryStorage) (key : String) : Bool × MemoryStorage :=
  let key := lowercase key
  let p : Bool × MemoryStorage :=
    match s.transaction_stack with
    | layer :: rest =>
        (true,
          { s with transaction_stack :=
              { strings := mapInsert layer.strings key none
                lists := mapInsert layer.lists key none } :: rest })
    | [] =>
        if (s.strings key).isSome then
          (true, { s with strings := mapRemove s.strings key })
        else
          ((s.lists key).isSome,
            { s with strings := mapRemove s.strings key
                     lists := mapRemove s.lists key })
  if p.1 then (true, { p.2 with cache := (p.2.cache.remove key).2 }) else p

/-- `MemoryStorage::get_or_insert_string`: current value of the slot the
source returns a `&mut String` to, together with the storage resulting from
writing a given string back through that reference.  In a transaction the
slot is the top layer's entry, initialized from the base table (not from
lower layers) when the layer does not mention the key, with a tombstone or
absence replaced by the default; outside it is the base entry, defaulted. -/
def get_or_insert_string (s : MemoryStorage) (key dflt : String) :
    String × (String → MemoryStorage) :=
  let key := lowercase key
  match s.transaction_stack with
  | layer :: rest =>
      let current : String :=
        match layer.strings key with
        | some (some v) => v
        | some none => dflt
        | none =>
            match s.strings key with
            | some v => v
            | none => dflt
      (current, fun w =>
        { s with transaction_stack :=
            { layer with strings := mapInsert layer.strings key (some w) } :: rest })
  | [] =>
      let current := (s.strings key).getD dflt
      (current, fun w => { s with strings := mapInsert s.strings key w })

/-- `MemoryStorage::incr`. -/
def incr (s : MemoryStorage) (key : String) : Int × MemoryStorage :=
  let p := s.get_or_insert_string key "0"
  let num := (parse_i64 p.1).getD 0 + 1
  (num, p.2 (i64_to_string num))

/-- `MemoryStorage::decr`. -/
def decr (s : MemoryStorage) (key : String) : Int × MemoryStorage :=
  let p := s.get_or_insert_string key "0"
  let num := (parse_i64 p.1).getD 0 - 1
  (num, p.2 (i64_to_string num))

/-- `MemoryStorage::get_or_insert_list`, in the same style as
`get_or_insert_string`. -/
def get_or_insert_list (s : MemoryStorage) (key : String) :
    List String × (List String → MemoryStorage) :=
  let key := lowercase key
  match s.transaction_stack with
  | layer :: rest =>
      let current : List String :=
        match layer.lists key with
        | some (some l) => l
        | some none => []
        | none =>
            match s.lists key with
            | some l => l
            | none => []
      (current, fun w =>
        { s with transaction_stack :=
            { layer with lists := mapInsert layer.lists key (some w) } :: rest })
  | [] =>
      let current := (s.lists key).getD []
      (current, fun w => { s with lists := mapInsert s.lists key w })

/-- `MemoryStorage::lpush`. -/
def lpush (s : MemoryStorage) (key value : String) : Nat × MemoryStorage :=
  let p := s.get_or_insert_list key
  let l := value :: p.1
  (l.length, p.2 l)

/-- `MemoryStorage::rpush`. -/
def rpush (s : MemoryStorage) (key value : String) : Nat × MemoryStorage :=
  let p := s.get_or_insert_list key
  let l := p.1 ++ [value]
  (l.length, p.2 l)

/-- `MemoryStorage::lpop` (`VecDeque::pop_front`). -/
def lpop (s : MemoryStorage) (key : String) : Option String × MemoryStorage :=
  let p := s.get_or_insert_list key
  match p.1 with
  | [] => (none, p.2 [])
  | x :: xs => (some x, p.2 xs)

/-- `MemoryStorage::rpop` (`VecDeque::pop_back`). -/
def rpop (s : MemoryStorage) (key : String) : Option String × MemoryStorage :=
  let p := s.get_or_insert_list key
  match p.1.getLast? with
  | none => (none, p.2 [])
  | some x => (some x, p.2 p.1.dropLast)

/-- `MemoryStorage::llen`: length from the nearest layer that holds the list
(a tombstone `Some(None)` does not match `Some(Some(list))` and falls
through), else from the base table. -/
def llen (s : MemoryStorage) (key : String) : Nat :=
  let key := lowercase key
  let fromStack := s.transaction_stack.findSome? fun layer =>
    match layer.lists key with
    | some (some l) => some l.length
    | _ => none
  match fromStack with
  | some n => n
  | none => ((s.lists key).getD []).length

end MemoryStorage

/-! ## Raft per-node state (`src/cluster/state.rs`) and errors
(`src/cluster/error.rs`) -/

/-- `RaftError`, restricted to the variants the modelled operations can
produce (I/O and serialization wrappers are elided with the I/O itself). -/
inductive RaftError : Type
  | InvalidTerm (current received : Nat)
  | NodeNotFound (node : String)
  | LogNotFound (index : Nat)
  | LogCompactionInProgress
  | Transport (msg : String)
  | State (msg : String)
deriving DecidableEq

/-- `NodeRole`. -/
inductive NodeRole : Type
  | Follower
  | Candidate
  | Leader
deriving DecidableEq

/-- `RaftConfig`. -/
structure RaftConfig : Type where
  election_timeout_min : Nat
  election_timeout_max : Nat
  heartbeat_interval : Nat
deriving DecidableEq

/-- `RaftState`.  `Instant` fields are logical clock values; the randomized
election timeout is modelled by an explicit `rand` argument to the
operations that call `random_election_timeout` (the drawn value lies in
`[election_timeout_min, election_timeout_max]`, which no claim here depends
on). -/
structure RaftState : Type where
  node_id : String
  current_term : Nat
  voted_for : Option String
  role : NodeRole
  votes_received : Nat
  election_timeout : Nat
  last_election_time : Nat
  last_heartbeat : Nat
  heartbeat_interval : Nat
  last_log_index : Nat
  last_log_term : Nat
  commit_index : Nat
  last_applied : Nat
  config : RaftConfig
deriving DecidableEq

namespace RaftState

/-- `RaftState::new` (the initial random timeout drawn is `rand`). -/
def new (node_id : String) (config : RaftConfig) (rand now : Nat) : RaftState :=
  { node_id := node_id
    current_term := 0
    voted_for := none
    role := NodeRole.Follower
    votes_received := 0
    election_timeout := rand
    last_election_time := now
    last_heartbeat := now
    heartbeat_interval := config.heartbeat_interval
    last_log_index := 0
    last_log_term := 0
    commit_index := 0
    last_applied := 0
    config := config }

/-- `RaftState::reset_election_timeout`. -/
def reset_election_timeout (s : RaftState) (rand now : Nat) : RaftState :=
  { s with election_timeout := rand, last_election_time := now }

/-- `RaftState::update_term`. -/
def update_term (s : RaftState) (term : Nat) : Except RaftError RaftState :=
  if term < s.current_term then
    .error (RaftError.InvalidTerm s.current_term term)
  else if s.current_term < term then
    .ok { s with current_term := term, voted_for := none, role := NodeRole.Follower }
  else
    .ok s

/-- `RaftState::begin_election`. -/
def begin_election (s : RaftState) (rand now : Nat) : RaftState :=
  let s := { s with
    role := NodeRole.Candidate
    current_term := s.current_term + 1
    voted_for := some s.node_id
    votes_received := 1 }
  s.reset_election_timeout rand now

/-- `RaftState::handle_vote_request`.  Returns the `RaftResult<bool>` and the
resulting state. -/
def handle_vote_request (s : RaftState) (candidate_id : String)
    (term last_log_index last_log_term : Nat) (rand now : Nat) :
    Except RaftError Bool × RaftState :=
  if term < s.current_term then (.ok false, s)
  else
    match s.update_term term with
    | .error e => (.error e, s)
    | .ok s1 =>
        let can_vote := s1.voted_for = none ∨ s1.voted_for = some candidate_id
        let log_is_current := s1.last_log_term < last_log_term ∨
          (last_log_term = s1.last_log_term ∧ s1.last_log_index ≤ last_log_index)
        if can_vote ∧ log_is_current then
          (.ok true,
            ({ s1 with voted_for := some candidate_id }).reset_election_timeout rand now)
        else
          (.ok false, s1)

/-- `RaftState::receive_vote`. -/
def receive_vote (s : RaftState) (granted : Bool) : RaftState :=
  if granted ∧ s.role = NodeRole.Candidate then
    { s with votes_received := s.votes_received + 1 }
  else s

/-- `RaftState::check_election_won`. -/
def check_election_won (s : RaftState) (cluster_size : Nat) : Bool :=
  s.role = NodeRole.Candidate ∧ cluster_size / 2 < s.votes_received

/-- `RaftState::become_leader`. -/
def become_leader (s : RaftState) (now : Nat) : RaftState :=
  if s.role = NodeRole.Candidate then
    { s with role := NodeRole.Leader, last_heartbeat := now }
  else s

/-- `RaftState::update_heartbeat`. -/
def update_heartbeat (s : RaftState) (now : Nat) : RaftState :=
  { s with last_heartbeat := now }

end RaftState

/-! ## Raft log store (`src/cluster/log_store.rs`) -/

/-- `LogEntry` from `src/cluster/message.rs`; `data` is an opaque byte
vector. -/
structure LogEntry : Type where
  term : Nat
  index : Nat
  data : List Nat
  timestamp : Nat
deriving DecidableEq

/-- `SnapshotMetadata`. -/
structure SnapshotMetadata : Type where
  last_index : Nat
  last_term : Nat
  timestamp : Nat
deriving DecidableEq

/-- `Snapshot`.  The source stores `data` as the `bincode` serialization of
the committed prefix; the model stores that prefix unserialized. -/
structure Snapshot : Type where
  metadata : SnapshotMetadata
  data : List LogEntry
deriving DecidableEq

/-- `MemLogStore`; the `snapshot_dir` path and the on-disk copy of the
snapshot are I/O state with no bearing on the in-memory semantics and are
dropped. -/
structure MemLogStore : Type where
  logs : List LogEntry
  committed_index : Nat
  current_snapshot : Option Snapshot
deriving DecidableEq

namespace MemLogStore

/-- `MemLogStore::new` (directory creation elided). -/
def new : MemLogStore :=
  { logs := [], committed_index := 0, current_snapshot := none }

/-- `LogStore::last_index for MemLogStore`: the length of the in-memory
vector. -/
def last_index (s : MemLogStore) : Nat :=
  s.logs.length

/-- `LogStore::last_term for MemLogStore`. -/
def last_term (s : MemLogStore) : Nat :=
  (s.logs.getLast?.map LogEntry.term).getD 0

/-- `LogStore::get for MemLogStore`: 1-based array access. -/
def get (s : MemLogStore) (index : Nat) : Option LogEntry :=
  if index = 0 ∨ s.last_index < index then none
  else s.logs.get? (index - 1)

/-- `LogStore::delete_from for MemLogStore`: truncate from a 1-based index
on, clamping `committed_index` down to the new last index if needed. -/
def delete_from (s : MemLogStore) (index : Nat) : MemLogStore :=
  if index = 0 ∨ s.last_index < index then s
  else
    let s1 := { s with logs := s.logs.take (index - 1) }
    if s1.last_index < s1.committed_index then
      { s1 with committed_index := s1.last_index }
    else s1

/-- `LogStore::append for MemLogStore`. -/
def append : MemLogStore → List LogEntry → Except RaftError Nat × MemLogStore
  | s, [] => (.ok s.last_index, s)
  | s, e :: rest =>
      if e.index ≤ s.last_index then
        let s1 := s.delete_from e.index
        let s2 := { s1 with logs := s1.logs ++ e :: rest }
        (.ok s2.last_index, s2)
      else if s.last_index + 1 < e.index then
        (.error (RaftError.LogNotFound (s.last_index + 1)), s)
      else
        let s2 := { s with logs := s.logs ++ e :: rest }
        (.ok s2.last_index, s2)

/-- `LogStore::commit for MemLogStore`. -/
def commit (s : MemLogStore) (index : Nat) : Except RaftError Unit × MemLogStore :=
  if index = 0 then (.ok (), s)
  else if s.last_index < index then (.error (RaftError.LogNotFound index), s)
  else if index < s.committed_index then
    (.error (RaftError.State "Cannot commit"), s)
  else (.ok (), { s with committed_index := index })

/-- `LogStore::snapshot for MemLogStore`: in-memory effect only (the
serialization round-trips and the file write is I/O).  Serializes the
committed prefix, records it as the current snapshot, and drops it from the
in-memory log. -/
def snapshot (s : MemLogStore) (now : Nat) : Except RaftError Unit × MemLogStore :=
  let snapshot_index := s.committed_index
  if snapshot_index = 0 then (.ok (), s)
  else
    match s.get snapshot_index with
    | none => (.error (RaftError.LogNotFound snapshot_index), s)
    | some e =>
        let metadata : SnapshotMetadata :=
          { last_index := snapshot_index, last_term := e.term, timestamp := now }
        let snap : Snapshot := { metadata := metadata, data := s.logs.take snapshot_index }
        (.ok (),
          { s with current_snapshot := some snap, logs := s.logs.drop snapshot_index })

end MemLogStore

deriving instance DecidableEq for Except

/-! ## Claim C1 -/

/-- C1: the claim states that a tombstone in the top transaction layer makes
`get` return absent.  In the code, `get`'s stack walk is
`layer.strings.get(&key).cloned().flatten()`, which collapses a recorded
tombstone `Some(None)` to `None` and keeps searching, so the lookup falls
through to the base table.  At the failing input - `set k v`, then
`start_transaction`, then `del k` (which records the tombstone and returns
true) - `get k` returns `some "v"` although the top layer holds a tombstone
for `k` and the claim demands absence. -/
theorem c1_get_ignores_tombstone :
    (((((MemoryStorage.new.set 0 "k" "v").start_transaction).del "k").2).transaction_stack.head?.map
        fun l => l.strings "k") = some (some none) ∧
    ((((MemoryStorage.new.set 0 "k" "v").start_transaction).del "k").2).strings "k" = some "v" ∧
    (((((MemoryStorage.new.set 0 "k" "v").start_transaction).del "k").2).get 0 "k").1
      = some "v" := by
  decide

/-! ## Claim C3 -/

/-- C3: the claim states that outside a transaction `del` removes the key
from both base tables.  The source computes
`strings.remove(k).is_some() || lists.remove(k).is_some()` with the
short-circuiting `||`, so when the string table contains the key the list
table is never touched.  At the failing input - `set k v` then `lpush k a`,
so that `k` is in both tables - `del k` returns true and removes the string
copy, but the list copy survives. -/
theorem c3_del_short_circuits_list_table :
    (((MemoryStorage.new.set 0 "k" "v").lpush "k" "a").2.del "k").1 = true ∧
    (((MemoryStorage.new.set 0 "k" "v").lpush "k" "a").2.del "k").2.strings "k" = none ∧
    (((MemoryStorage.new.set 0 "k" "v").lpush "k" "a").2.del "k").2.lists "k"
      = some ["a"] := by
  decide

/-! ## Claim C2 -/

/-- Two-entry store with committed index 1, used to refute C2 as stated. -/
def c2store : MemLogStore :=
  { logs := [{ term := 1, index := 1, data := [], timestamp := 0 },
             { term := 1, index := 2, data := [], timestamp := 0 }]
    committed_index := 1
    current_snapshot := none }

/-- C2, counterexample: on the dense two-entry log with committed index
c = 1, `snapshot()` succeeds and exactly the entry with index field 2
remains, but `last_index()` returns 1 (not L = 2) and `get 2` returns
`none` (the claim demands the entry with index field 2). -/
theorem c2_snapshot_counterexample :
    (c2store.snapshot 0).1 = .ok () ∧
    (c2store.snapshot 0).2.logs = [{ term := 1, index := 2, data := [], timestamp := 0 }] ∧
    (c2store.snapshot 0).2.last_index = 1 ∧
    (c2store.snapshot 0).2.get 2 = none := by
  decide

/-- C2, amended: for a `MemLogStore` with dense 1-based index fields and
committed index c with 1 ≤ c ≤ L, `snapshot()` succeeds and exactly the
entries with index field c+1..L remain, in order - but they are re-addressed
from 1: `last_index()` returns L - c, `get i` for 1 ≤ i ≤ L - c returns the
entry whose index field is c + i, and `get i` is absent beyond L - c.
`committed_index` is unchanged. -/
theorem c2_snapshot_reindexes (s : MemLogStore) (now : Nat)
    (hdense : ∀ i (h : i < s.logs.length), (s.logs.get ⟨i, h⟩).index = i + 1)
    (h1 : 1 ≤ s.committed_index) (h2 : s.committed_index ≤ s.last_index) :
    (s.snapshot now).1 = .ok () ∧
    (s.snapshot now).2.logs = s.logs.drop s.committed_index ∧
    (s.snapshot now).2.last_index = s.last_index - s.committed_index ∧
    (s.snapshot now).2.committed_index = s.committed_index ∧
    (∀ i, 1 ≤ i → i ≤ s.last_index - s.committed_index →
      ∃ e, (s.snapshot now).2.get i = some e ∧ e.index = s.committed_index + i) ∧
    (∀ i, s.last_index - s.committed_index < i → (s.snapshot now).2.get i = none) := by
  have hc0 : s.committed_index ≠ 0 := by omega
  have hlt : s.committed_index - 1 < s.logs.length := by
    unfold MemLogStore.last_index at h2; omega
  have hget : s.get s.committed_index = some (s.logs.get ⟨s.committed_index - 1, hlt⟩) := by
    unfold MemLogStore.get
    rw [if_neg]
    · exact List.get?_eq_get hlt
    · push_neg
      exact ⟨by omega, h2⟩
  have hs' : s.snapshot now =
      (.ok (),
        { s with
            current_snapshot := some
              { metadata :=
                  { last_index := s.committed_index
                    last_term := (s.logs.get ⟨s.committed_index - 1, hlt⟩).term
                    timestamp := now }
                data := s.logs.take s.committed_index }
            logs := s.logs.drop s.committed_index }) := by
    unfold MemLogStore.snapshot
    rw [if_neg hc0, hget]
  rw [hs']
  refine ⟨rfl, rfl, ?_, rfl, ?_, ?_⟩
  · unfold MemLogStore.last_index
    simp [List.length_drop]
  · intro i hi1 hi2
    unfold MemLogStore.last_index at hi2 h2
    have hidx : s.committed_index + (i - 1) < s.logs.length := by omega
    refine ⟨s.logs.get ⟨s.committed_index + (i - 1), hidx⟩, ?_, ?_⟩
    · unfold MemLogStore.get MemLogStore.last_index
      rw [if_neg]
      · show (s.logs.drop s.committed_index).get? (i - 1) = _
        rw [List.get?_eq_getElem?, List.getElem?_drop]
        exact List.getElem?_eq_getElem hidx
      · push_neg
        refine ⟨by omega, ?_⟩
        show i ≤ (s.logs.drop s.committed_index).length
        rw [List.length_drop]
        omega
    · rw [hdense]
      omega
  · intro i hi
    unfold MemLogStore.last_index at hi h2
    unfold MemLogStore.get
    rw [if_pos]
    right
    show (s.logs.drop s.committed_index).length < i
    rw [List.length_drop]
    omega

/-- C2, witness: the amended theorem applied to the concrete two-entry
store. -/
theorem c2_snapshot_reindexes_witness :
    (∀ i (h : i < c2store.logs.length), (c2store.logs.get ⟨i, h⟩).index = i + 1) ∧
    1 ≤ c2store.committed_index ∧
    c2store.committed_index ≤ c2store.last_index ∧
    (c2store.snapshot 0).2.last_index = c2store.last_index - c2store.committed_index :=
  ⟨by decide, by decide, by decide,
    (c2_snapshot_reindexes c2store 0 (by decide) (by decide) (by decide)).2.2.1⟩

/-! ## Claim C7 -/

/-- One-entry store used to refute C7 as stated. -/
def c7store : MemLogStore :=
  { logs := [{ term := 1, index := 1, data := [], timestamp := 0 }]
    committed_index := 0
    current_snapshot := none }

/-- Batch whose first entry has index field 0, the input refuting C7. -/
def c7entry : LogEntry := { term := 1, index := 0, data := [], timestamp := 0 }

/-- C7, counterexample: with one stored entry (so last_index = 1) and a
batch whose first index f = 0 satisfies f ≤ last_index, the claim demands
that the tail from f on - i.e. everything - be truncated before the append,
leaving exactly the batch.  The code's `delete_from(0)` is a no-op, so the
old entry survives in front of the batch. -/
theorem c7_append_counterexample :
    c7entry.index ≤ c7store.last_index ∧
    (c7store.append [c7entry]).2.logs
      = [{ term := 1, index := 1, data := [], timestamp := 0 }, c7entry] ∧
    (c7store.append [c7entry]).2.logs ≠ [c7entry] := by
  decide

/-- C7, amended: `append` on an empty batch returns `last_index` and changes
nothing; for a batch with first index f, if 1 ≤ f ≤ last_index the stored
tail from position f on is truncated (clamping `committed_index` to the new
last index) and the batch is appended; if f = 0 (≤ last_index but outside
the 1-based range) nothing is truncated and the batch is appended; if
f = last_index + 1 the batch is appended directly; and if f > last_index + 1
the call fails with `LogNotFound (last_index + 1)` leaving the store
unchanged. -/
theorem c7_append_contract (s : MemLogStore) (entries : List LogEntry) :
    (entries = [] → s.append entries = (.ok s.last_index, s)) ∧
    (∀ e rest, entries = e :: rest →
      (1 ≤ e.index → e.index ≤ s.last_index →
        (s.append entries).2.logs = s.logs.take (e.index - 1) ++ entries ∧
        (s.append entries).2.committed_index = min s.committed_index (e.index - 1) ∧
        (s.append entries).1 = .ok (s.append entries).2.last_index) ∧
      (e.index = 0 →
        (s.append entries).2.logs = s.logs ++ entries ∧
        (s.append entries).2.committed_index = s.committed_index ∧
        (s.append entries).1 = .ok (s.append entries).2.last_index) ∧
      (e.index = s.last_index + 1 →
        (s.append entries).2.logs = s.logs ++ entries ∧
        (s.append entries).2.committed_index = s.committed_index ∧
        (s.append entries).1 = .ok (s.append entries).2.last_index) ∧
      (s.last_index + 1 < e.index →
        s.append entries = (.error (RaftError.LogNotFound (s.last_index + 1)), s))) := by
  constructor
  · intro h
    subst h
    rfl
  · intro e rest h
    subst h
    refine ⟨?_, ?_, ?_, ?_⟩
    · intro h1 h2
      have hdel : s.delete_from e.index =
          { s with logs := s.logs.take (e.index - 1),
                   committed_index := min s.committed_index (e.index - 1) } := by
        unfold MemLogStore.delete_from MemLogStore.last_index
        rw [if_neg]
        · have hlen : (s.logs.take (e.index - 1)).length = e.index - 1 := by
            rw [List.length_take]
            unfold MemLogStore.last_index at h2
            omega
          by_cases hc : e.index - 1 < s.committed_index
          · rw [if_pos]
            · congr 1
              rw [hlen, Nat.min_def, if_neg (by omega)]
            · simpa [hlen] using hc
          · rw [if_neg]
            · congr 1
              rw [Nat.min_def, if_pos (by omega)]
            · simpa [hlen] using hc
        · push_neg
          exact ⟨by omega, h2⟩
      simp only [MemLogStore.append]
      rw [if_pos h2, hdel]
      exact ⟨rfl, rfl, rfl⟩
    · intro h0
      have h2 : e.index ≤ s.last_index := by omega
      have hdel : s.delete_from e.index = s := by
        unfold MemLogStore.delete_from
        rw [if_pos]
        left
        exact h0
      simp only [MemLogStore.append]
      rw [if_pos h2, hdel]
      exact ⟨rfl, rfl, rfl⟩
    · intro hnext
      simp only [MemLogStore.append]
      rw [if_neg (by omega), if_neg (by omega)]
      exact ⟨rfl, rfl, rfl⟩
    · intro hgap
      simp only [MemLogStore.append]
      rw [if_neg (by omega), if_pos hgap]

/-- C7, witness: the amended contract applied to an empty store receiving a
batch starting at index 1 (the contiguous-append case). -/
theorem c7_append_contract_witness :
    ({ term := 2, index := 1, data := [], timestamp := 0 } : LogEntry).index
        = MemLogStore.new.last_index + 1 ∧
    (MemLogStore.new.append [{ term := 2, index := 1, data := [], timestamp := 0 }]).2.logs
        = MemLogStore.new.logs ++ [{ term := 2, index := 1, data := [], timestamp := 0 }] ∧
    (MemLogStore.new.append [{ term := 2, index := 1, data := [], timestamp := 0 }]).2.committed_index
        = MemLogStore.new.committed_index ∧
    (MemLogStore.new.append [{ term := 2, index := 1, data := [], timestamp := 0 }]).1
        = .ok (MemLogStore.new.append
            [{ term := 2, index := 1, data := [], timestamp := 0 }]).2.last_index :=
  ⟨by decide,
    ((c7_append_contract MemLogStore.new
        [{ term := 2, index := 1, data := [], timestamp := 0 }]).2
      { term := 2, index := 1, data := [], timestamp := 0 } [] rfl).2.2.1 (by decide)⟩

/-- Alphabet of `RaftState` operations, with explicit clock / randomness
arguments. -/
inductive RaftOp : Type
  | update_term (term : Nat)
  | begin_election (rand now : Nat)
  | handle_vote_request (candidate : String) (term lli llt rand now : Nat)
  | receive_vote (granted : Bool)
  | become_leader (now : Nat)
  | reset_election_timeout (rand now : Nat)
  | update_heartbeat (now : Nat)

namespace RaftState

/-- State transition of one operation (results discarded; a failed
`update_term` leaves the state unchanged, as the source's early return
does). -/
def step (s : RaftState) : RaftOp → RaftState
  | .update_term t =>
      match s.update_term t with
      | .ok s' => s'
      | .error _ => s
  | .begin_election rand now => s.begin_election rand now
  | .handle_vote_request c t i l rand now => (s.handle_vote_request c t i l rand now).2
  | .receive_vote g => s.receive_vote g
  | .become_leader now => s.become_leader now
  | .reset_election_timeout rand now => s.reset_election_timeout rand now
  | .update_heartbeat now => s.update_heartbeat now

/-- The grant events an operation emits: a granted `handle_vote_request`
records the post-state's term together with the candidate. -/
def grants (s : RaftState) : RaftOp → List (Nat × String)
  | .handle_vote_request c t i l rand now =>
      let p := s.handle_vote_request c t i l rand now
      if p.1 = .ok true then [(p.2.current_term, c)] else []
  | _ => []

/-- Run a list of operations. -/
def run : RaftState → List RaftOp → RaftState
  | s, [] => s
  | s, op :: ops => (s.step op).run ops

/-- All grant events along a run. -/
def trace_grants : RaftState → List RaftOp → List (Nat × String)
  | _, [] => []
  | s, op :: ops => s.grants op ++ (s.step op).trace_grants ops

end RaftState

/-- Any two grant events at the same term name the same candidate. -/
def OneVotePerTerm (ev : List (Nat × String)) : Prop :=
  ∀ e1 ∈ ev, ∀ e2 ∈ ev, e1.1 = e2.1 → e1.2 = e2.2

/-- Auxiliary invariant tying past grant events to the current state. -/
def VoteInv (s : RaftState) (ev : List (Nat × String)) : Prop :=
  (∀ e ∈ ev, e.1 ≤ s.current_term) ∧
  (∀ e ∈ ev, e.1 = s.current_term → s.voted_for = some e.2)

theorem hvr_reject (s : RaftState) (c : String) (t i l r n : Nat)
    (ht : t < s.current_term) :
    s.handle_vote_request c t i l r n = (.ok false, s) := by
  unfold RaftState.handle_vote_request
  rw [if_pos ht]

theorem hvr_grant_newterm (s : RaftState) (c : String) (t i l r n : Nat)
    (hlt : s.current_term < t)
    (hlog : s.last_log_term < l ∨ (l = s.last_log_term ∧ s.last_log_index ≤ i)) :
    s.handle_vote_request c t i l r n =
      (.ok true,
        ({ s with
            current_term := t
            role := NodeRole.Follower
            voted_for := some c } : RaftState).reset_election_timeout r n) := by
  unfold RaftState.handle_vote_request RaftState.update_term
  rw [if_neg (show ¬ t < s.current_term from by omega),
    if_neg (show ¬ t < s.current_term from by omega), if_pos hlt]
  exact if_pos ⟨Or.inl rfl, hlog⟩

theorem hvr_nogrant_newterm (s : RaftState) (c : String) (t i l r n : Nat)
    (hlt : s.current_term < t)
    (hlog : ¬ (s.last_log_term < l ∨ (l = s.last_log_term ∧ s.last_log_index ≤ i))) :
    s.handle_vote_request c t i l r n =
      (.ok false,
        { s with
            current_term := t
            voted_for := none
            role := NodeRole.Follower }) := by
  unfold RaftState.handle_vote_request RaftState.update_term
  rw [if_neg (show ¬ t < s.current_term from by omega),
    if_neg (show ¬ t < s.current_term from by omega), if_pos hlt]
  exact if_neg (fun hc => hlog hc.2)

theorem hvr_grant_sameterm (s : RaftState) (c : String) (i l r n : Nat)
    (hg : (s.voted_for = none ∨ s.voted_for = some c) ∧
      (s.last_log_term < l ∨ (l = s.last_log_term ∧ s.last_log_index ≤ i))) :
    s.handle_vote_request c s.current_term i l r n =
      (.ok true, ({ s with voted_for := some c } : RaftState).reset_election_timeout r n) := by
  unfold RaftState.handle_vote_request RaftState.update_term
  rw [if_neg (lt_irrefl _), if_neg (lt_irrefl _), if_neg (lt_irrefl _)]
  exact if_pos hg

theorem hvr_nogrant_sameterm (s : RaftState) (c : String) (i l r n : Nat)
    (hg : ¬ ((s.voted_for = none ∨ s.voted_for = some c) ∧
      (s.last_log_term < l ∨ (l = s.last_log_term ∧ s.last_log_index ≤ i)))) :
    s.handle_vote_request c s.current_term i l r n = (.ok false, s) := by
  unfold RaftState.handle_vote_request RaftState.update_term
  rw [if_neg (lt_irrefl _), if_neg (lt_irrefl _), if_neg (lt_irrefl _)]
  exact if_neg hg

theorem hvr_facts (s : RaftState) (c : String) (t i l r n : Nat) :
    s.current_term ≤ (s.handle_vote_request c t i l r n).2.current_term ∧
    ((s.handle_vote_request c t i l r n).1 = .ok true →
      (s.handle_vote_request c t i l r n).2.voted_for = some c) ∧
    ((s.handle_vote_request c t i l r n).2.current_term = s.current_term →
      ((s.handle_vote_request c t i l r n).1 ≠ .ok true →
        (s.handle_vote_request c t i l r n).2.voted_for = s.voted_for) ∧
      ((s.handle_vote_request c t i l r n).1 = .ok true →
        s.voted_for = none ∨ s.voted_for = some c)) := by
  by_cases ht : t < s.current_term
  · rw [hvr_reject s c t i l r n ht]
    refine ⟨le_refl _, ?_, ?_⟩
    · intro h
      exact absurd h (by simp)
    · intro _
      exact ⟨fun _ => rfl, fun h => absurd h (by simp)⟩
  · by_cases hlt : s.current_term < t
    · by_cases hlog : s.last_log_term < l ∨ (l = s.last_log_term ∧ s.last_log_index ≤ i)
      · rw [hvr_grant_newterm s c t i l r n hlt hlog]
        refine ⟨?_, fun _ => rfl, fun habs => ?_⟩
        · show s.current_term ≤ t
          omega
        · exact absurd (show t = s.current_term from habs) (by omega)
      · rw [hvr_nogrant_newterm s c t i l r n hlt hlog]
        refine ⟨?_, fun h => absurd h (by simp), fun habs => ?_⟩
        · show s.current_term ≤ t
          omega
        · exact absurd (show t = s.current_term from habs) (by omega)
    · have hteq : t = s.current_term := by omega
      subst hteq
      by_cases hg : (s.voted_for = none ∨ s.voted_for = some c) ∧
          (s.last_log_term < l ∨ (l = s.last_log_term ∧ s.last_log_index ≤ i))
      · rw [hvr_grant_sameterm s c i l r n hg]
        exact ⟨le_refl _, fun _ => rfl,
          fun _ => ⟨fun hne => absurd rfl hne, fun _ => hg.1⟩⟩
      · rw [hvr_nogrant_sameterm s c i l r n hg]
        exact ⟨le_refl _, fun h => absurd h (by simp),
          fun _ => ⟨fun _ => rfl, fun h => absurd h (by simp)⟩⟩

theorem vote_inv_step (s : RaftState) (ev : List (Nat × String)) (op : RaftOp)
    (h1 : ∀ e ∈ ev, e.1 ≤ s.current_term)
    (h2 : ∀ e ∈ ev, e.1 = s.current_term → s.voted_for = some e.2)
    (hone : OneVotePerTerm ev) :
    (∀ e ∈ ev ++ s.grants op, e.1 ≤ (s.step op).current_term) ∧
    (∀ e ∈ ev ++ s.grants op, e.1 = (s.step op).current_term →
      (s.step op).voted_for = some e.2) ∧
    OneVotePerTerm (ev ++ s.grants op) := by
  cases op with
  | handle_vote_request c t i l rand now =>
      obtain ⟨hF1, hF2, hF3⟩ := hvr_facts s c t i l rand now
      simp only [RaftState.step, RaftState.grants]
      by_cases hres : (s.handle_vote_request c t i l rand now).1 = .ok true
      · simp only [if_pos hres]
        have hvf : (s.handle_vote_request c t i l rand now).2.voted_for = some c :=
          hF2 hres
        have hkey : ∀ e ∈ ev,
            e.1 = (s.handle_vote_request c t i l rand now).2.current_term → e.2 = c := by
          intro e hm heq
          by_cases hsame :
              (s.handle_vote_request c t i l rand now).2.current_term = s.current_term
          · have hv := h2 e hm (by omega)
            rcases (hF3 hsame).2 hres with h0 | hc
            · rw [h0] at hv
              cases hv
            · rw [hc] at hv
              exact (Option.some_inj.mp hv).symm
          · have := h1 e hm
            omega
        refine ⟨?_, ?_, ?_⟩
        · intro e he
          rcases List.mem_append.mp he with hm | hm
          · exact le_trans (h1 e hm) hF1
          · simp only [List.mem_singleton] at hm
            subst hm
            exact le_refl _
        · intro e he heq
          rcases List.mem_append.mp he with hm | hm
          · rw [hvf]
            exact congrArg some (hkey e hm heq).symm
          · simp only [List.mem_singleton] at hm
            subst hm
            exact hvf
        · intro e1 he1 e2 he2 heq
          rcases List.mem_append.mp he1 with hm1 | hm1 <;>
            rcases List.mem_append.mp he2 with hm2 | hm2
          · exact hone e1 hm1 e2 hm2 heq
          · simp only [List.mem_singleton] at hm2
            subst hm2
            exact hkey e1 hm1 heq
          · simp only [List.mem_singleton] at hm1
            subst hm1
            exact (hkey e2 hm2 heq.symm).symm
          · simp only [List.mem_singleton] at hm1 hm2
            subst hm1
            subst hm2
            rfl
      · simp only [if_neg hres, List.append_nil]
        refine ⟨?_, ?_, hone⟩
        · intro e he
          exact le_trans (h1 e he) hF1
        · intro e he heq
          by_cases hsame :
              (s.handle_vote_request c t i l rand now).2.current_term = s.current_term
          · rw [(hF3 hsame).1 hres]
            exact h2 e he (by omega)
          · have := h1 e he
            omega
  | update_term t =>
      simp only [RaftState.step, RaftState.grants, List.append_nil]
      unfold RaftState.update_term
      split_ifs with ha hb
      · exact ⟨h1, h2, hone⟩
      · refine ⟨?_, ?_, hone⟩
        · intro e he
          have := h1 e he
          simp only
          omega
        · intro e he heq
          have := h1 e he
          simp only at heq
          omega
      · exact ⟨h1, h2, hone⟩
  | begin_election rand now =>
      simp only [RaftState.step, RaftState.grants, List.append_nil]
      refine ⟨?_, ?_, hone⟩
      · intro e he
        have := h1 e he
        simp only [RaftState.begin_election, RaftState.reset_election_timeout]
        omega
      · intro e he heq
        have := h1 e he
        simp only [RaftState.begin_election, RaftState.reset_election_timeout] at heq
        omega
  | receive_vote g =>
      simp only [RaftState.step, RaftState.grants, List.append_nil]
      unfold RaftState.receive_vote
      split_ifs
      · exact ⟨h1, h2, hone⟩
      · exact ⟨h1, h2, hone⟩
  | become_leader now =>
      simp only [RaftState.step, RaftState.grants, List.append_nil]
      unfold RaftState.become_leader
      split_ifs
      · exact ⟨h1, h2, hone⟩
      · exact ⟨h1, h2, hone⟩
  | reset_election_timeout rand now =>
      simp only [RaftState.step, RaftState.grants, List.append_nil]
      exact ⟨h1, h2, hone⟩
  | update_heartbeat now =>
      simp only [RaftState.step, RaftState.grants, List.append_nil]
      exact ⟨h1, h2, hone⟩

theorem vote_inv_run (s : RaftState) (ev : List (Nat × String)) (ops : List RaftOp)
    (h1 : ∀ e ∈ ev, e.1 ≤ s.current_term)
    (h2 : ∀ e ∈ ev, e.1 = s.current_term → s.voted_for = some e.2)
    (hone : OneVotePerTerm ev) :
    OneVotePerTerm (ev ++ s.trace_grants ops) := by
  induction ops generalizing s ev with
  | nil =>
      simpa [RaftState.trace_grants] using hone
  | cons op ops ih =>
      obtain ⟨g1, g2, gone⟩ := vote_inv_step s ev op h1 h2 hone
      have := ih (s.step op) (ev ++ s.grants op) g1 g2 gone
      simpa [RaftState.trace_grants, List.append_assoc] using this

/-- C6: within one fixed value of `current_term` at most one distinct
candidate is ever granted a vote.  Conjuncts: (1) along every operation
sequence from a fresh `RaftState`, any two grant events with equal term name
the same candidate; (2) `handle_vote_request` rejects a request with
`term < current_term` without changing the state; (3) for `term ≥
current_term`, the vote is granted iff (`voted_for` is unset-or-the-candidate
when the term is unchanged - a strictly larger term resets it first) and the
candidate's log is at least as up-to-date (strictly higher last log term, or
equal last log term and at least our last log index), and a grant records
`voted_for = candidate`; (4) a step leaves `voted_for = none` only if it was
already `none` or the step strictly increased `current_term`. -/
theorem c6_one_vote_per_term :
    (∀ node cfg rand now ops,
        OneVotePerTerm ((RaftState.new node cfg rand now).trace_grants ops)) ∧
    (∀ (s : RaftState) (c : String) (t i l r n : Nat), t < s.current_term →
        s.handle_vote_request c t i l r n = (.ok false, s)) ∧
    (∀ (s : RaftState) (c : String) (t i l r n : Nat), s.current_term ≤ t →
        ((s.handle_vote_request c t i l r n).1 = .ok true ↔
          ((t = s.current_term → (s.voted_for = none ∨ s.voted_for = some c)) ∧
            (s.last_log_term < l ∨ (l = s.last_log_term ∧ s.last_log_index ≤ i)))) ∧
        ((s.handle_vote_request c t i l r n).1 = .ok true →
          (s.handle_vote_request c t i l r n).2.voted_for = some c)) ∧
    (∀ (s : RaftState) (op : RaftOp), (s.step op).voted_for = none →
        s.voted_for = none ∨ s.current_term < (s.step op).current_term) := by
  refine ⟨?_, ?_, ?_, ?_⟩
  · intro node cfg rand now ops
    have h := vote_inv_run (RaftState.new node cfg rand now) [] ops
      (by intro e he; cases he) (by intro e he; cases he)
      (by intro e1 he1; cases he1)
    simpa using h
  · intro s c t i l r n ht
    exact hvr_reject s c t i l r n ht
  · intro s c t i l r n ht
    by_cases hlt : s.current_term < t
    · by_cases hlog : s.last_log_term < l ∨ (l = s.last_log_term ∧ s.last_log_index ≤ i)
      · rw [hvr_grant_newterm s c t i l r n hlt hlog]
        constructor
        · constructor
          · intro _
            exact ⟨fun habs => absurd habs (by omega), hlog⟩
          · intro _
            rfl
        · intro _
          rfl
      · rw [hvr_nogrant_newterm s c t i l r n hlt hlog]
        constructor
        · constructor
          · intro habs
            exact absurd habs (by simp)
          · intro hr
            exact absurd hr.2 hlog
        · intro habs
          exact absurd habs (by simp)
    · have hteq : t = s.current_term := by omega
      subst hteq
      by_cases hg : (s.voted_for = none ∨ s.voted_for = some c) ∧
          (s.last_log_term < l ∨ (l = s.last_log_term ∧ s.last_log_index ≤ i))
      · rw [hvr_grant_sameterm s c i l r n hg]
        constructor
        · constructor
          · intro _
            exact ⟨fun _ => hg.1, hg.2⟩
          · intro _
            rfl
        · intro _
          rfl
      · rw [hvr_nogrant_sameterm s c i l r n hg]
        constructor
        · constructor
          · intro habs
            exact absurd habs (by simp)
          · intro hr
            exact absurd ⟨hr.1 rfl, hr.2⟩ hg
        · intro habs
          exact absurd habs (by simp)
  · intro s op
    cases op with
    | update_term t =>
        simp only [RaftState.step]
        unfold RaftState.update_term
        split_ifs with ha hb
        · intro h
          exact Or.inl h
        · intro _
          exact Or.inr (by simpa using hb)
        · intro h
          exact Or.inl h
    | begin_election rand now =>
        intro habs
        exact absurd habs (by simp [RaftState.step, RaftState.begin_election,
          RaftState.reset_election_timeout])
    | handle_vote_request c t i l rand now =>
        simp only [RaftState.step]
        by_cases ht : t < s.current_term
        · rw [hvr_reject s c t i l rand now ht]
          intro h
          exact Or.inl h
        · by_cases hlt : s.current_term < t
          · by_cases hlog : s.last_log_term < l ∨ (l = s.last_log_term ∧ s.last_log_index ≤ i)
            · rw [hvr_grant_newterm s c t i l rand now hlt hlog]
              intro habs
              exact absurd habs (by simp [RaftState.reset_election_timeout])
            · rw [hvr_nogrant_newterm s c t i l rand now hlt hlog]
              intro _
              exact Or.inr (by simpa using hlt)
          · have hteq : t = s.current_term := by omega
            subst hteq
            by_cases hg : (s.voted_for = none ∨ s.voted_for = some c) ∧
                (s.last_log_term < l ∨ (l = s.last_log_term ∧ s.last_log_index ≤ i))
            · rw [hvr_grant_sameterm s c i l rand now hg]
              intro habs
              exact absurd habs (by simp [RaftState.reset_election_timeout])
            · rw [hvr_nogrant_sameterm s c i l rand now hg]
              intro h
              exact Or.inl h
    | receive_vote g =>
        simp only [RaftState.step]
        unfold RaftState.receive_vote
        split_ifs
        · intro h
          exact Or.inl h
        · intro h
          exact Or.inl h
    | become_leader now =>
        simp only [RaftState.step]
        unfold RaftState.become_leader
        split_ifs
        · intro h
          exact Or.inl h
        · intro h
          exact Or.inl h
    | reset_election_timeout rand now =>
        intro h
        exact Or.inl h
    | update_heartbeat now =>
        intro h
        exact Or.inl h

/-- C10: the vote tally records no voter identity.  `begin_election` sets
`votes_received = 1`; each `receive_vote true` while Candidate adds exactly
one, so k granted responses - distinct peers or not - yield k + 1; with
k = 2 duplicate responses from a single peer, `check_election_won 5`
already returns true although only 2 distinct nodes (self and that peer)
granted a vote, and 2 is not a strict majority of 5 (`¬ (5 / 2 < 2)`). -/
theorem c10_vote_tally (s : RaftState) (rand now k : Nat) :
    ((fun u : RaftState => u.receive_vote true)^[k] (s.begin_election rand now)).votes_received
        = k + 1 ∧
    ((fun u : RaftState => u.receive_vote true)^[k] (s.begin_election rand now)).role
        = NodeRole.Candidate ∧
    (2 ≤ k →
      ((fun u : RaftState => u.receive_vote true)^[k]
          (s.begin_election rand now)).check_election_won 5 = true) ∧
    ¬ (5 / 2 < 2) := by
  have main : ∀ (m : Nat) (u : RaftState), u.role = NodeRole.Candidate →
      ((fun u : RaftState => u.receive_vote true)^[m] u).votes_received
          = u.votes_received + m ∧
      ((fun u : RaftState => u.receive_vote true)^[m] u).role = NodeRole.Candidate := by
    intro m
    induction m with
    | zero =>
        intro u hu
        exact ⟨rfl, hu⟩
    | succ m ih =>
        intro u hu
        rw [Function.iterate_succ_apply]
        have hstep : (u.receive_vote true).votes_received = u.votes_received + 1 ∧
            (u.receive_vote true).role = NodeRole.Candidate := by
          unfold RaftState.receive_vote
          rw [if_pos ⟨rfl, hu⟩]
          exact ⟨rfl, hu⟩
        obtain ⟨ih1, ih2⟩ := ih (u.receive_vote true) hstep.2
        rw [ih1, hstep.1]
        exact ⟨by omega, ih2⟩
  have hrole : (s.begin_election rand now).role = NodeRole.Candidate := rfl
  have hv : (s.begin_election rand now).votes_received = 1 := rfl
  obtain ⟨hm1, hm2⟩ := main k _ hrole
  refine ⟨by rw [hm1, hv]; omega, hm2, ?_, by decide⟩
  intro hk
  exact decide_eq_true ⟨hm2, by rw [hm1, hv]; omega⟩

/-- C6, witness: conjunct (2) of the theorem applied to a concrete state
with `current_term = 1` and a request at term 0. -/
theorem c6_one_vote_per_term_witness :
    0 < ((RaftState.new "n1" ⟨150, 300, 50⟩ 7 0).begin_election 9 0).current_term ∧
    ((RaftState.new "n1" ⟨150, 300, 50⟩ 7 0).begin_election 9 0).handle_vote_request
        "n2" 0 0 0 3 4
      = (.ok false, (RaftState.new "n1" ⟨150, 300, 50⟩ 7 0).begin_election 9 0) :=
  ⟨by decide, c6_one_vote_per_term.2.1 _ "n2" 0 0 0 3 4 (by decide)⟩

/-- C10, witness: the election-won conjunct at k = 2 duplicate grants in a
five-node cluster. -/
theorem c10_vote_tally_witness :
    2 ≤ 2 ∧
    ((fun u : RaftState => u.receive_vote true)^[2]
        ((RaftState.new "n1" ⟨150, 300, 50⟩ 7 0).begin_election 9 0)).check_election_won 5
      = true :=
  ⟨by decide, (c10_vote_tally (RaftState.new "n1" ⟨150, 300, 50⟩ 7 0) 9 0 2).2.2.1 (by decide)⟩

/-! ## Decimal round-trip lemmas and claim C4 -/

/-- A digit below 10 renders as a digit character. -/
theorem digitChar_isDigit {d : Nat} (hd : d < 10) : (Nat.digitChar d).isDigit = true := by
  interval_cases d <;> decide

theorem digitChar_toNat {d : Nat} (hd : d < 10) : (Nat.digitChar d).toNat - 48 = d := by
  interval_cases d <;> decide

/-- Appending one digit multiplies the accumulated value by 10. -/
theorem digitsVal_append (a : List Char) (c : Char) :
    digitsVal (a ++ [c]) = 10 * digitsVal a + (c.toNat - 48) := by
  unfold digitsVal
  rw [List.foldl_append]
  rfl

/-- With sufficient fuel, `natDigits` renders a nonempty all-digit string
whose value is the rendered number. -/
theorem natDigits_spec : ∀ (fuel n : Nat), 0 < fuel → n < 10 ^ fuel →
    natDigits fuel n ≠ [] ∧ (natDigits fuel n).all Char.isDigit = true ∧
      digitsVal (natDigits fuel n) = n := by
  intro fuel
  induction fuel with
  | zero =>
      intro n h0
      omega
  | succ fuel ih =>
      intro n _ hn
      by_cases h10 : n < 10
      · simp only [natDigits, if_pos h10]
        refine ⟨by simp, ?_, ?_⟩
        · simp [digitChar_isDigit h10]
        · show digitsVal ([] ++ [Nat.digitChar n]) = n
          rw [digitsVal_append, digitChar_toNat h10]
          simp [digitsVal]
      · simp only [natDigits, if_neg h10]
        have hf : 0 < fuel := by
          rcases Nat.eq_zero_or_pos fuel with hf0 | hf
          · subst hf0
            simp at hn
            omega
          · exact hf
        have hdiv : n / 10 < 10 ^ fuel := by
          rw [Nat.div_lt_iff_lt_mul (by norm_num)]
          calc n < 10 ^ (fuel + 1) := hn
          _ = 10 ^ fuel * 10 := by rw [pow_succ]
        obtain ⟨hne, hall, hval⟩ := ih (n / 10) hf hdiv
        have hmod : n % 10 < 10 := Nat.mod_lt n (by norm_num)
        refine ⟨by simp, ?_, ?_⟩
        · rw [List.all_append, hall]
          simp [digitChar_isDigit hmod]
        · rw [digitsVal_append, hval, digitChar_toNat hmod]
          exact Nat.div_add_mod n 10

/-- The digit parser inverts `natDigits` at the fuel `i64_to_string`
uses. -/
theorem parseNatDigits_natDigits (n : Nat) :
    parseNatDigits (natDigits (n + 1) n) = some n := by
  have hlt : n < 10 ^ (n + 1) := by
    calc n < 10 ^ n := Nat.lt_pow_self (by norm_num) n
    _ ≤ 10 ^ (n + 1) := Nat.pow_le_pow_right (by norm_num) (by omega)
  obtain ⟨hne, hall, hval⟩ := natDigits_spec (n + 1) n (by omega) hlt
  unfold parseNatDigits
  rw [if_neg hne, if_pos hall, hval]

/-- A digit character is not the minus sign. -/
theorem isDigit_ne_dash {c : Char} (h : c.isDigit = true) : ¬ (c = '-') := by
  intro he
  subst he
  exact absurd h (by decide)

/-- A digit character is not the plus sign. -/
theorem isDigit_ne_plus {c : Char} (h : c.isDigit = true) : ¬ (c = '+') := by
  intro he
  subst he
  exact absurd h (by decide)

/-- Parsing inverts printing on the `i64` range (nonnegative case). -/
theorem parse_i64_round (n : Nat) (hn : (n : Int) < 2 ^ 63) :
    parse_i64 (i64_to_string (n : Int)) = some (n : Int) := by
  have h0 : ¬ ((n : Int) < 0) := not_lt.mpr (Int.natCast_nonneg n)
  unfold i64_to_string
  rw [if_neg h0]
  have htn : (n : Int).toNat = n := Int.toNat_natCast n
  rw [htn]
  have hlt : n < 10 ^ (n + 1) := by
    calc n < 10 ^ n := Nat.lt_pow_self (by norm_num) n
    _ ≤ 10 ^ (n + 1) := Nat.pow_le_pow_right (by norm_num) (by omega)
  obtain ⟨hne, hall, _⟩ := natDigits_spec (n + 1) n (by omega) hlt
  show parse_i64_chars (natDigits (n + 1) n) = some (n : Int)
  cases hd : natDigits (n + 1) n with
  | nil => exact absurd hd hne
  | cons c cs =>
      have hcdig : c.isDigit = true := by
        rw [hd, List.all_cons, Bool.and_eq_true] at hall
        exact hall.1
      simp only [parse_i64_chars]
      rw [if_neg (isDigit_ne_dash hcdig), if_neg (isDigit_ne_plus hcdig)]
      unfold parse_i64_core
      rw [← hd, parseNatDigits_natDigits n]
      have hcond : -(2 ^ 63) ≤ int_of_sign false n ∧ int_of_sign false n < 2 ^ 63 := by
        unfold int_of_sign
        simp only [if_neg (by decide : ¬ (false = true))]
        constructor
        · exact le_trans (by norm_num) (Int.natCast_nonneg n)
        · exact hn
      show (if -(2 ^ 63) ≤ int_of_sign false n ∧ int_of_sign false n < 2 ^ 63 then
          some (int_of_sign false n) else none) = some (n : Int)
      rw [if_pos hcond]
      rfl

/-- `incr` with no active transaction: read the base entry (default "0"),
add one, write the decimal rendering back to the base entry. -/
theorem incr_no_tx (s : MemoryStorage) (k : String) (h : s.transaction_stack = []) :
    s.incr k = ((parse_i64 ((s.strings (lowercase k)).getD "0")).getD 0 + 1,
      { s with
          strings := mapInsert s.strings (lowercase k)
            (i64_to_string ((parse_i64 ((s.strings (lowercase k)).getD "0")).getD 0 + 1)) }) := by
  unfold MemoryStorage.incr MemoryStorage.get_or_insert_string
  rw [h]

/-- `incr` with an active transaction: read the top layer's entry if the
layer mentions the key (a tombstone acting as absence), otherwise the BASE
table - lower layers are never consulted - then write back into the top
layer. -/
theorem incr_top_layer (s : MemoryStorage) (k : String) (layer : TransactionLayer)
    (rest : List TransactionLayer) (h : s.transaction_stack = layer :: rest) :
    s.incr k = ((parse_i64 (match layer.strings (lowercase k) with
        | some (some v) => v
        | some none => "0"
        | none => (s.strings (lowercase k)).getD "0")).getD 0 + 1,
      { s with
          transaction_stack :=
            { layer with
                strings := mapInsert layer.strings (lowercase k)
                  (some (i64_to_string ((parse_i64 (match layer.strings (lowercase k) with
                    | some (some v) => v
                    | some none => "0"
                    | none => (s.strings (lowercase k)).getD "0")).getD 0 + 1))) } :: rest }) := by
  unfold MemoryStorage.incr MemoryStorage.get_or_insert_string
  rw [h]
  cases hl : layer.strings (lowercase k) with
  | none =>
      simp only [hl]
      cases hs : s.strings (lowercase k) <;> simp only [hs] <;> try rfl
  | some o =>
      cases o with
      | none =>
          simp only [hl]
          try rfl
      | some v =>
          simp only [hl]
          try rfl

theorem c4_iter_state (s : MemoryStorage) (k : String)
    (hstack : s.transaction_stack = []) (habs : s.strings (lowercase k) = none)
    (n : Nat) (hn : n < 2 ^ 63) :
    ∀ j, j ≤ n →
      (((fun t : MemoryStorage => (t.incr k).2)^[j] s).transaction_stack = [] ∧
        ((fun t : MemoryStorage => (t.incr k).2)^[j] s).strings (lowercase k)
          = if j = 0 then none else some (i64_to_string (j : Int))) := by
  intro j
  induction j with
  | zero =>
      intro _
      rw [Function.iterate_zero_apply]
      rw [if_pos rfl]
      exact ⟨hstack, habs⟩
  | succ j ih =>
      intro hj
      obtain ⟨ih1, ih2⟩ := ih (by omega)
      rw [Function.iterate_succ_apply']
      rw [incr_no_tx _ k ih1]
      by_cases hj0 : j = 0
      · subst hj0
        rw [if_pos rfl] at ih2
        rw [ih2]
        refine ⟨ih1, ?_⟩
        show mapInsert _ (lowercase k) _ (lowercase k) = _
        unfold mapInsert
        rw [if_pos rfl, if_neg (by omega)]
        rw [show parse_i64 (Option.getD none "0") = some (0 : Int) from by decide]
        norm_num
      · rw [if_neg hj0] at ih2
        rw [ih2]
        have hjr : parse_i64 (i64_to_string (j : Int)) = some (j : Int) :=
          parse_i64_round j (by push_cast; omega)
        refine ⟨ih1, ?_⟩
        show mapInsert _ (lowercase k) _ (lowercase k) = _
        unfold mapInsert
        rw [if_pos rfl, if_neg (by omega)]
        rw [show ((some (i64_to_string (j : Int))).getD "0") = i64_to_string (j : Int) from rfl]
        rw [hjr]
        rw [show ((some ((j : Int))).getD 0) = (j : Int) from rfl]
        congr 1
        try push_cast
        try ring

/-- The read discipline the claim asserts for `incr`: walk the transaction
stack top to bottom, then the base table (this is what `get` implements,
apart from the cache).  Stated from the claim's words, to compare with what
`incr` actually does. -/
def stack_read (s : MemoryStorage) (key : String) : Option String :=
  (s.transaction_stack.findSome? fun layer => (layer.strings key).join).orElse
    fun _ => s.strings key

/-- Storage state refuting C4's read discipline: base holds "5", the lower
transaction layer holds "10", the top layer does not mention the key. -/
def c4state : MemoryStorage :=
  { strings := fun x => if x = "k" then some "5" else none
    lists := fun _ => none
    transaction_stack :=
      [TransactionLayer.empty,
        { strings := fun x => if x = "k" then some (some "10") else none
          lists := fun _ => none }]
    cache := AVLCache.new 1000 300 }

/-- C4, counterexample: reading through the stack (as the claim asserts)
sees the lower layer's "10", so the claim demands `incr` return 11; the
code's `get_or_insert_string` skips lower layers and falls back to the base
table's "5", so `incr` returns 6. -/
theorem c4_incr_counterexample :
    (c4state.transaction_stack.head?.map fun l => l.strings "k") = some none ∧
    stack_read c4state "k" = some "10" ∧
    (c4state.incr "k").1 = 6 ∧
    (6 : Int) ≠ 10 + 1 := by
  decide

/-- C4, amended: `incr` reads the key's value from the TOP transaction
layer if that layer mentions it (a recorded tombstone counting as absent),
otherwise directly from the base table - intermediate layers are not
consulted - treats absence or non-numeric text as 0, adds 1, writes the
decimal result into the top layer (or the base table with no transaction),
and returns it; with no active transaction, n consecutive `incr` of an
absent key return 1, 2, ..., n (n below 2^63, the `i64` range the source
computes in). -/
theorem c4_incr_amended :
    (∀ (s : MemoryStorage) (k : String) (layer : TransactionLayer)
        (rest : List TransactionLayer), s.transaction_stack = layer :: rest →
      s.incr k = ((parse_i64 (match layer.strings (lowercase k) with
          | some (some v) => v
          | some none => "0"
          | none => (s.strings (lowercase k)).getD "0")).getD 0 + 1,
        { s with
            transaction_stack :=
              { layer with
                  strings := mapInsert layer.strings (lowercase k)
                    (some (i64_to_string ((parse_i64 (match layer.strings (lowercase k) with
                      | some (some v) => v
                      | some none => "0"
                      | none => (s.strings (lowercase k)).getD "0")).getD 0 + 1))) } :: rest })) ∧
    (∀ (s : MemoryStorage) (k : String), s.transaction_stack = [] →
      s.incr k = ((parse_i64 ((s.strings (lowercase k)).getD "0")).getD 0 + 1,
        { s with
            strings := mapInsert s.strings (lowercase k)
              (i64_to_string ((parse_i64 ((s.strings (lowercase k)).getD "0")).getD 0 + 1)) })) ∧
    (∀ (s : MemoryStorage) (k : String) (n : Nat), s.transaction_stack = [] →
      s.strings (lowercase k) = none → n < 2 ^ 63 →
      ∀ j, j < n →
        ((((fun t : MemoryStorage => (t.incr k).2)^[j]) s).incr k).1 = (j : Int) + 1) := by
  refine ⟨incr_top_layer, incr_no_tx, ?_⟩
  intro s k n hstack habs hn j hj
  obtain ⟨hst, hstr⟩ := c4_iter_state s k hstack habs n hn j (by omega)
  rw [incr_no_tx _ k hst]
  by_cases hj0 : j = 0
  · subst hj0
    rw [if_pos rfl] at hstr
    rw [hstr]
    rw [show parse_i64 (Option.getD none "0") = some (0 : Int) from by decide]
    norm_num
  · rw [if_neg hj0] at hstr
    rw [hstr]
    have hjr : parse_i64 (i64_to_string (j : Int)) = some (j : Int) :=
      parse_i64_round j (by push_cast; omega)
    show (parse_i64 ((some (i64_to_string (j : Int))).getD "0")).getD 0 + 1 = (j : Int) + 1
    rw [show ((some (i64_to_string (j : Int))).getD "0") = i64_to_string (j : Int) from rfl]
    rw [hjr]
    rfl

/-- C4, witness: the third `incr` on a fresh store returns 3. -/
theorem c4_incr_amended_witness :
    MemoryStorage.new.transaction_stack = [] ∧
    MemoryStorage.new.strings (lowercase "c") = none ∧
    (3 : Nat) < 2 ^ 63 ∧ (2 : Nat) < 3 ∧
    ((((fun t : MemoryStorage => (t.incr "c").2)^[2]) MemoryStorage.new).incr "c").1
      = (2 : Int) + 1 :=
  ⟨rfl, rfl, by norm_num, by norm_num,
    c4_incr_amended.2.2 MemoryStorage.new "c" 3 rfl rfl (by norm_num) 2 (by norm_num)⟩

namespace AVLTree

variable {K V : Type}

theorem entries_update_height (t : AVLTree K V) :
    entries (update_height t) = entries t := by
  cases t <;> rfl

theorem entries_rotate_left (t : AVLTree K V) :
    entries (rotate_left t) = entries t := by
  cases t with
  | nil => rfl
  | node k v l r h ts =>
      cases r with
      | nil => rfl
      | node rk rv rl rr rh rts =>
          show entries (update_height (node rk rv (update_height (node k v l rl h ts)) rr rh rts))
              = _
          rw [entries_update_height]
          show entries (update_height (node k v l rl h ts)) + _ + _ = _
          rw [entries_update_height]
          show entries l + {(k, v, ts)} + entries rl + {(rk, rv, rts)} + entries rr
            = entries l + {(k, v, ts)} + (entries rl + {(rk, rv, rts)} + entries rr)
          abel

theorem entries_rotate_right (t : AVLTree K V) :
    entries (rotate_right t) = entries t := by
  cases t with
  | nil => rfl
  | node k v l r h ts =>
      cases l with
      | nil => rfl
      | node lk lv ll lr lh lts =>
          show entries (update_height (node lk lv ll (update_height (node k v lr r h ts)) lh lts))
              = _
          rw [entries_update_height]
          show entries ll + {(lk, lv, lts)} + entries (update_height (node k v lr r h ts)) = _
          rw [entries_update_height]
          show entries ll + {(lk, lv, lts)} + (entries lr + {(k, v, ts)} + entries r)
            = entries ll + {(lk, lv, lts)} + entries lr + {(k, v, ts)} + entries r
          abel

theorem entries_balance (t : AVLTree K V) :
    entries (balance t) = entries t := by
  cases t with
  | nil => rfl
  | node k v l r h ts =>
      simp only [balance, update_height]
      split_ifs <;>
        simp only [entries_rotate_right, entries_rotate_left, entries]

theorem entries_remove_min (k : K) (v : V) (l r : AVLTree K V) (h : Int) (ts : Nat) :
    entries (remove_min k v l r h ts).1
        + {((remove_min k v l r h ts).2.1, (remove_min k v l r h ts).2.2.1,
            (remove_min k v l r h ts).2.2.2)}
      = entries (node k v l r h ts) := by
  induction l generalizing k v r h ts with
  | nil =>
      show entries r + {(k, v, ts)} = 0 + {(k, v, ts)} + entries r
      abel
  | node lk lv ll lr lh lts ihl _ =>
      show entries (node k v (remove_min lk lv ll lr lh lts).1 r h ts)
          + {((remove_min lk lv ll lr lh lts).2.1, (remove_min lk lv ll lr lh lts).2.2.1,
              (remove_min lk lv ll lr lh lts).2.2.2)}
        = _
      show entries (remove_min lk lv ll lr lh lts).1 + {(k, v, ts)} + entries r
          + {((remove_min lk lv ll lr lh lts).2.1, (remove_min lk lv ll lr lh lts).2.2.1,
              (remove_min lk lv ll lr lh lts).2.2.2)}
        = _
      calc entries (remove_min lk lv ll lr lh lts).1 + {(k, v, ts)} + entries r
            + {((remove_min lk lv ll lr lh lts).2.1, (remove_min lk lv ll lr lh lts).2.2.1,
                (remove_min lk lv ll lr lh lts).2.2.2)}
          = entries (remove_min lk lv ll lr lh lts).1
            + {((remove_min lk lv ll lr lh lts).2.1, (remove_min lk lv ll lr lh lts).2.2.1,
                (remove_min lk lv ll lr lh lts).2.2.2)}
            + {(k, v, ts)} + entries r := by abel
        _ = entries (node lk lv ll lr lh lts) + {(k, v, ts)} + entries r := by rw [ihl]

variable [LinearOrder K] [DecidableEq K]

theorem entries_insert_found (t : AVLTree K V) (size now : Nat) (key : K)
    (value v0 : V) (ts0 : Nat) (hget : get_node t key = some (v0, ts0)) :
    (insert_helper size t now key value).1 = size ∧
    entries (insert_helper size t now key value).2 + {(key, v0, ts0)}
      = entries t + {(key, value, now)} := by
  induction t with
  | nil => exact absurd hget (by simp [get_node])
  | node k v l r h ts ihl ihr =>
      by_cases hk : key = k
      · subst hk
        simp only [get_node, if_pos rfl, if_true] at hget
        have h12 : (v, ts) = (v0, ts0) := Option.some_inj.mp hget
        injection h12 with hv hts
        subst hv
        subst hts
        simp only [insert_helper, if_pos rfl, if_true]
        refine ⟨by trivial, ?_⟩
        show entries (balance (node key value l r h now)) + {(key, v, ts)}
          = entries (node key v l r h ts) + {(key, value, now)}
        rw [entries_balance]
        show entries l + {(key, value, now)} + entries r + {(key, v, ts)}
          = entries l + {(key, v, ts)} + entries r + {(key, value, now)}
        abel
      · by_cases hlt : key < k
        · simp only [get_node, if_neg hk, if_pos hlt] at hget
          obtain ⟨ih1, ih2⟩ := ihl hget
          simp only [insert_helper, if_neg hk, if_pos hlt]
          refine ⟨ih1, ?_⟩
          show entries (balance (node k v (insert_helper size l now key value).2 r h ts))
              + {(key, v0, ts0)}
            = entries (node k v l r h ts) + {(key, value, now)}
          rw [entries_balance]
          calc entries (node k v (insert_helper size l now key value).2 r h ts)
              + {(key, v0, ts0)}
              = entries (insert_helper size l now key value).2 + {(key, v0, ts0)}
                + {(k, v, ts)} + entries r := by
                show entries (insert_helper size l now key value).2 + {(k, v, ts)} + entries r
                    + {(key, v0, ts0)} = _
                abel
            _ = entries l + {(key, value, now)} + {(k, v, ts)} + entries r := by rw [ih2]
            _ = entries (node k v l r h ts) + {(key, value, now)} := by
                show _ = entries l + {(k, v, ts)} + entries r + {(key, value, now)}
                abel
        · simp only [get_node, if_neg hk, if_neg hlt] at hget
          obtain ⟨ih1, ih2⟩ := ihr hget
          simp only [insert_helper, if_neg hk, if_neg hlt]
          refine ⟨ih1, ?_⟩
          show entries (balance (node k v l (insert_helper size r now key value).2 h ts))
              + {(key, v0, ts0)}
            = entries (node k v l r h ts) + {(key, value, now)}
          rw [entries_balance]
          calc entries (node k v l (insert_helper size r now key value).2 h ts)
              + {(key, v0, ts0)}
              = entries l + {(k, v, ts)}
                + (entries (insert_helper size r now key value).2 + {(key, v0, ts0)}) := by
                show entries l + {(k, v, ts)} + entries (insert_helper size r now key value).2
                    + {(key, v0, ts0)} = _
                abel
            _ = entries l + {(k, v, ts)} + (entries r + {(key, value, now)}) := by rw [ih2]
            _ = entries (node k v l r h ts) + {(key, value, now)} := by
                show _ = entries l + {(k, v, ts)} + entries r + {(key, value, now)}
                abel

theorem entries_insert_new (t : AVLTree K V) (size now : Nat) (key : K)
    (value : V) (hget : get_node t key = none) :
    (insert_helper size t now key value).1 = size + 1 ∧
    entries (insert_helper size t now key value).2
      = entries t + {(key, value, now)} := by
  induction t with
  | nil =>
      refine ⟨rfl, ?_⟩
      show (0 : Multiset (K × V × Nat)) + {(key, value, now)} + 0 = 0 + {(key, value, now)}
      abel
  | node k v l r h ts ihl ihr =>
      by_cases hk : key = k
      · simp [get_node, if_pos hk] at hget
      · by_cases hlt : key < k
        · simp only [get_node, if_neg hk, if_pos hlt] at hget
          obtain ⟨ih1, ih2⟩ := ihl hget
          simp only [insert_helper, if_neg hk, if_pos hlt]
          refine ⟨ih1, ?_⟩
          show entries (balance (node k v (insert_helper size l now key value).2 r h ts))
            = entries (node k v l r h ts) + {(key, value, now)}
          rw [entries_balance]
          show entries (insert_helper size l now key value).2 + {(k, v, ts)} + entries r
            = entries l + {(k, v, ts)} + entries r + {(key, value, now)}
          rw [ih2]
          abel
        · simp only [get_node, if_neg hk, if_neg hlt] at hget
          obtain ⟨ih1, ih2⟩ := ihr hget
          simp only [insert_helper, if_neg hk, if_neg hlt]
          refine ⟨ih1, ?_⟩
          show entries (balance (node k v l (insert_helper size r now key value).2 h ts))
            = entries (node k v l r h ts) + {(key, value, now)}
          rw [entries_balance]
          show entries l + {(k, v, ts)} + entries (insert_helper size r now key value).2
            = entries l + {(k, v, ts)} + entries r + {(key, value, now)}
          rw [ih2]
          abel

theorem entries_remove_get (t : AVLTree K V) (key : K) (v0 : V) (ts0 : Nat)
    (hget : get_node t key = some (v0, ts0)) :
    (remove_recursive t key).2 = some v0 ∧
    entries (remove_recursive t key).1 + {(key, v0, ts0)} = entries t := by
  induction t with
  | nil => exact absurd hget (by simp [get_node])
  | node k v l r h ts ihl ihr =>
      by_cases hk : key = k
      · subst hk
        simp only [get_node, if_pos rfl, if_true] at hget
        have h12 : (v, ts) = (v0, ts0) := Option.some_inj.mp hget
        injection h12 with hv hts
        subst hv
        subst hts
        simp only [remove_recursive, if_pos rfl, if_true]
        cases l with
        | nil =>
            cases r with
            | nil =>
                refine ⟨rfl, ?_⟩
                show entries (nil : AVLTree K V) + {(key, v, ts)}
                  = 0 + {(key, v, ts)} + entries (nil : AVLTree K V)
                abel
            | node rk rv rl rr rh rts =>
                refine ⟨rfl, ?_⟩
                show entries (node rk rv rl rr rh rts) + {(key, v, ts)}
                  = 0 + {(key, v, ts)} + entries (node rk rv rl rr rh rts)
                abel
        | node lk lv ll lr lh lts =>
            cases r with
            | nil =>
                refine ⟨rfl, ?_⟩
                show entries (node lk lv ll lr lh lts) + {(key, v, ts)}
                  = entries (node lk lv ll lr lh lts) + {(key, v, ts)} + 0
                abel
            | node rk rv rl rr rh rts =>
                refine ⟨rfl, ?_⟩
                show entries (balance (node (remove_min rk rv rl rr rh rts).2.1
                      (remove_min rk rv rl rr rh rts).2.2.1 (node lk lv ll lr lh lts)
                      (remove_min rk rv rl rr rh rts).1 h
                      (remove_min rk rv rl rr rh rts).2.2.2)) + {(key, v, ts)}
                  = _
                rw [entries_balance]
                calc entries (node (remove_min rk rv rl rr rh rts).2.1
                      (remove_min rk rv rl rr rh rts).2.2.1 (node lk lv ll lr lh lts)
                      (remove_min rk rv rl rr rh rts).1 h
                      (remove_min rk rv rl rr rh rts).2.2.2) + {(key, v, ts)}
                    = entries (node lk lv ll lr lh lts)
                      + {(key, v, ts)}
                      + (entries (remove_min rk rv rl rr rh rts).1
                        + {((remove_min rk rv rl rr rh rts).2.1,
                            (remove_min rk rv rl rr rh rts).2.2.1,
                            (remove_min rk rv rl rr rh rts).2.2.2)}) := by
                      show entries (node lk lv ll lr lh lts)
                          + {((remove_min rk rv rl rr rh rts).2.1,
                              (remove_min rk rv rl rr rh rts).2.2.1,
                              (remove_min rk rv rl rr rh rts).2.2.2)}
                          + entries (remove_min rk rv rl rr rh rts).1 + {(key, v, ts)} = _
                      abel
                  _ = entries (node lk lv ll lr lh lts) + {(key, v, ts)}
                      + entries (node rk rv rl rr rh rts) := by
                      rw [entries_remove_min]
      · by_cases hlt : key < k
        · simp only [get_node, if_neg hk, if_pos hlt] at hget
          obtain ⟨ih1, ih2⟩ := ihl hget
          simp only [remove_recursive, if_neg hk, if_pos hlt]
          refine ⟨ih1, ?_⟩
          show entries (balance (node k v (remove_recursive l key).1 r h ts))
              + {(key, v0, ts0)} = entries (node k v l r h ts)
          rw [entries_balance]
          calc entries (node k v (remove_recursive l key).1 r h ts) + {(key, v0, ts0)}
              = entries (remove_recursive l key).1 + {(key, v0, ts0)}
                + {(k, v, ts)} + entries r := by
                show entries (remove_recursive l key).1 + {(k, v, ts)} + entries r
                    + {(key, v0, ts0)} = _
                abel
            _ = entries l + {(k, v, ts)} + entries r := by rw [ih2]
        · simp only [get_node, if_neg hk, if_neg hlt] at hget
          obtain ⟨ih1, ih2⟩ := ihr hget
          simp only [remove_recursive, if_neg hk, if_neg hlt]
          refine ⟨ih1, ?_⟩
          show entries (balance (node k v l (remove_recursive r key).1 h ts))
              + {(key, v0, ts0)} = entries (node k v l r h ts)
          rw [entries_balance]
          calc entries (node k v l (remove_recursive r key).1 h ts) + {(key, v0, ts0)}
              = entries l + {(k, v, ts)}
                + (entries (remove_recursive r key).1 + {(key, v0, ts0)}) := by
                show entries l + {(k, v, ts)} + entries (remove_recursive r key).1
                    + {(key, v0, ts0)} = _
                abel
            _ = entries l + {(k, v, ts)} + entries r := by rw [ih2]

theorem entries_remove_none (t : AVLTree K V) (key : K)
    (hget : get_node t key = none) :
    (remove_recursive t key).2 = none ∧
    entries (remove_recursive t key).1 = entries t := by
  induction t with
  | nil => exact ⟨rfl, rfl⟩
  | node k v l r h ts ihl ihr =>
      by_cases hk : key = k
      · simp [get_node, if_pos hk] at hget
      · by_cases hlt : key < k
        · simp only [get_node, if_neg hk, if_pos hlt] at hget
          obtain ⟨ih1, ih2⟩ := ihl hget
          simp only [remove_recursive, if_neg hk, if_pos hlt]
          refine ⟨ih1, ?_⟩
          show entries (balance (node k v (remove_recursive l key).1 r h ts))
            = entries (node k v l r h ts)
          rw [entries_balance]
          show entries (remove_recursive l key).1 + {(k, v, ts)} + entries r
            = entries l + {(k, v, ts)} + entries r
          rw [ih2]
        · simp only [get_node, if_neg hk, if_neg hlt] at hget
          obtain ⟨ih1, ih2⟩ := ihr hget
          simp only [remove_recursive, if_neg hk, if_neg hlt]
          refine ⟨ih1, ?_⟩
          show entries (balance (node k v l (remove_recursive r key).1 h ts))
            = entries (node k v l r h ts)
          rw [entries_balance]
          show entries l + {(k, v, ts)} + entries (remove_recursive r key).1
            = entries l + {(k, v, ts)} + entries r
          rw [ih2]

theorem get_node_mem (t : AVLTree K V) (key : K) (v : V) (ts : Nat)
    (hget : get_node t key = some (v, ts)) :
    (key, v, ts) ∈ entries t := by
  have h := (entries_remove_get t key v ts hget).2
  rw [← h]
  simp

end AVLTree

namespace AVLCache

variable {K V : Type} [LinearOrder K] [DecidableEq K]

theorem remove_found (c : AVLCache K V) (key : K) (v0 : V) (ts0 : Nat)
    (hget : c.root.get_node key = some (v0, ts0)) :
    c.remove key = (some v0,
      { c with root := (c.root.remove_recursive key).1, size := c.size - 1 }) := by
  have h1 := (AVLTree.entries_remove_get c.root key v0 ts0 hget).1
  unfold AVLCache.remove
  dsimp only
  rw [h1]

theorem remove_not_found (c : AVLCache K V) (key : K)
    (hget : c.root.get_node key = none) :
    c.remove key = (none, { c with root := (c.root.remove_recursive key).1 }) := by
  have h1 := (AVLTree.entries_remove_none c.root key hget).1
  unfold AVLCache.remove
  dsimp only
  rw [h1]

theorem put_found (c : AVLCache K V) (now : Nat) (key : K) (value v0 : V) (ts0 : Nat)
    (hget : c.root.get_node key = some (v0, ts0)) :
    c.put now key value = { c with
        root := (AVLTree.insert_helper c.size c.root now key value).2
        size := (AVLTree.insert_helper c.size c.root now key value).1 } := by
  unfold AVLCache.put AVLCache.contains_key
  rw [hget]
  dsimp only
  rw [if_neg (show ¬ ((some (v0, ts0)).isSome = false) from by simp),
    if_neg (fun hc => absurd hc.2 (by simp))]

theorem put_new_noevict (c : AVLCache K V) (now : Nat) (key : K) (value : V)
    (hget : c.root.get_node key = none) (hsz : ¬ (c.size = c.capacity)) :
    c.put now key value = { c with
        root := (AVLTree.insert_helper c.size c.root now key value).2
        size := Nat.min (AVLTree.insert_helper c.size c.root now key value).1 c.capacity } := by
  unfold AVLCache.put AVLCache.contains_key
  rw [hget]
  dsimp only
  rw [if_pos (show (none : Option (V × Nat)).isSome = false from rfl),
    if_neg (fun hc => hsz hc.1)]

theorem put_new_evict (c : AVLCache K V) (now : Nat) (key : K) (value : V)
    (hget : c.root.get_node key = none) (hsz : c.size = c.capacity)
    (mk : K) (mv : V) (hmin : c.root.min_entry = some (mk, mv)) :
    c.put now key value = { (c.remove mk).2 with
        root := (AVLTree.insert_helper (c.remove mk).2.size (c.remove mk).2.root
          now key value).2
        size := Nat.min (AVLTree.insert_helper (c.remove mk).2.size (c.remove mk).2.root
          now key value).1 (c.remove mk).2.capacity } := by
  unfold AVLCache.put AVLCache.contains_key
  rw [hget]
  dsimp only
  rw [if_pos (show (none : Option (V × Nat)).isSome = false from rfl),
    if_pos ⟨hsz, show (none : Option (V × Nat)).isSome = false from rfl⟩, hmin]

theorem get_hit (c : AVLCache K V) (now : Nat) (key : K) (v : V) (ts : Nat)
    (hget : c.root.get_node key = some (v, ts)) (hfresh : now - ts < c.ttl) :
    c.get now key = (some v, c.put now key v) := by
  unfold AVLCache.get
  rw [hget]
  dsimp only
  rw [if_pos hfresh]

theorem get_expired (c : AVLCache K V) (now : Nat) (key : K) (v : V) (ts : Nat)
    (hget : c.root.get_node key = some (v, ts)) (hfresh : ¬ (now - ts < c.ttl)) :
    c.get now key = (none, (c.remove key).2) := by
  unfold AVLCache.get
  rw [hget]
  dsimp only
  rw [if_neg hfresh]

theorem get_absent (c : AVLCache K V) (now : Nat) (key : K)
    (hget : c.root.get_node key = none) :
    c.get now key = (none, c) := by
  unfold AVLCache.get
  rw [hget]

end AVLCache

/-! ## Claim C9 -/

/-- C9: `get` on a present key with a fresh timestamp (`now - ts < ttl`)
returns the stored value and refreshes exactly that entry's timestamp to
`now` - the reinsertion evicts nothing: the entry multiset changes only at
that entry and `size` (with `capacity` and `ttl`) is unchanged.  On a
present but expired key the entry is removed (the multiset loses exactly
that entry, `size` drops by one) and `get` reports absence.  With
`ttl = 0` every `get` returns absent. -/
theorem c9_cache_get_contract {K V : Type} [LinearOrder K] [DecidableEq K]
    (c : AVLCache K V) (now : Nat) (key : K) :
    (∀ v ts, c.root.get_node key = some (v, ts) → now - ts < c.ttl →
      (c.get now key).1 = some v ∧
      AVLTree.entries (c.get now key).2.root + {(key, v, ts)}
        = AVLTree.entries c.root + {(key, v, now)} ∧
      (c.get now key).2.size = c.size ∧
      (c.get now key).2.capacity = c.capacity ∧
      (c.get now key).2.ttl = c.ttl) ∧
    (∀ v ts, c.root.get_node key = some (v, ts) → ¬ (now - ts < c.ttl) →
      (c.get now key).1 = none ∧
      AVLTree.entries (c.get now key).2.root + {(key, v, ts)} = AVLTree.entries c.root ∧
      (c.get now key).2.size = c.size - 1) ∧
    (c.ttl = 0 → (c.get now key).1 = none) := by
  refine ⟨?_, ?_, ?_⟩
  · intro v ts hget hfresh
    rw [AVLCache.get_hit c now key v ts hget hfresh]
    rw [AVLCache.put_found c now key v v ts hget]
    obtain ⟨hs, he⟩ := AVLTree.entries_insert_found c.root c.size now key v v ts hget
    exact ⟨rfl, he, hs, rfl, rfl⟩
  · intro v ts hget hfresh
    rw [AVLCache.get_expired c now key v ts hget hfresh]
    rw [AVLCache.remove_found c key v ts hget]
    obtain ⟨_, he⟩ := AVLTree.entries_remove_get c.root key v ts hget
    exact ⟨rfl, he, rfl⟩
  · intro httl
    cases hg : c.root.get_node key with
    | none =>
        rw [AVLCache.get_absent c now key hg]
    | some p =>
        rw [AVLCache.get_expired c now key p.1 p.2 (by rw [hg]) (by omega)]

/-- Single-entry cache used to witness C9. -/
def c9cache : AVLCache Nat Nat :=
  { root := AVLTree.node 1 10 AVLTree.nil AVLTree.nil 1 4
    capacity := 8
    size := 1
    ttl := 7 }

/-- C9, witness: a fresh hit on a single-entry cache. -/
theorem c9_cache_get_contract_witness :
    c9cache.root.get_node 1 = some (10, 4) ∧
    (5 : Nat) - 4 < c9cache.ttl ∧
    (c9cache.get 5 1).1 = some 10 :=
  ⟨by decide, by decide,
    ((c9_cache_get_contract c9cache 5 1).1 10 4 (by decide) (by decide)).1⟩

namespace AVLTree

variable {K V : Type} [LinearOrder K] [DecidableEq K]

theorem entries_insert_sub (t : AVLTree K V) (size now : Nat) (key : K) (value : V) :
    entries (insert_helper size t now key value).2 ≤ entries t + {(key, value, now)} := by
  cases hg : get_node t key with
  | none =>
      rw [(entries_insert_new t size now key value hg).2]
  | some p =>
      have h := (entries_insert_found t size now key value p.1 p.2 (by rw [hg])).2
      calc entries (insert_helper size t now key value).2
          ≤ entries (insert_helper size t now key value).2 + {(key, p.1, p.2)} :=
            Multiset.le_add_right _ _
        _ = entries t + {(key, value, now)} := h

theorem entries_remove_sub (t : AVLTree K V) (key : K) :
    entries (remove_recursive t key).1 ≤ entries t := by
  cases hg : get_node t key with
  | none => rw [(entries_remove_none t key hg).2]
  | some p =>
      have h := (entries_remove_get t key p.1 p.2 (by rw [hg])).2
      calc entries (remove_recursive t key).1
          ≤ entries (remove_recursive t key).1 + {(key, p.1, p.2)} :=
            Multiset.le_add_right _ _
        _ = entries t := h

end AVLTree

namespace AVLCache

variable {K V : Type} [LinearOrder K] [DecidableEq K]

theorem put_new_evict_nomin (c : AVLCache K V) (now : Nat) (key : K) (value : V)
    (hget : c.root.get_node key = none) (hsz : c.size = c.capacity)
    (hmin : c.root.min_entry = none) :
    c.put now key value = { c with
        root := (AVLTree.insert_helper c.size c.root now key value).2
        size := Nat.min (AVLTree.insert_helper c.size c.root now key value).1 c.capacity } := by
  unfold AVLCache.put AVLCache.contains_key
  rw [hget]
  dsimp only
  rw [if_pos (show (none : Option (V × Nat)).isSome = false from rfl),
    if_pos ⟨hsz, show (none : Option (V × Nat)).isSome = false from rfl⟩, hmin]

theorem root_remove (c : AVLCache K V) (key : K) :
    (c.remove key).2.root = (c.root.remove_recursive key).1 := by
  cases hg : c.root.get_node key with
  | none => rw [remove_not_found c key hg]
  | some p => rw [remove_found c key p.1 p.2 (by rw [hg])]

theorem mem_put (c : AVLCache K V) (now : Nat) (key : K) (value : V)
    (x : K × V × Nat) (hx : x ∈ AVLTree.entries (c.put now key value).root) :
    x ∈ AVLTree.entries c.root ∨ x = (key, value, now) := by
  have sub1 : ∀ t : AVLTree K V, ∀ size,
      x ∈ AVLTree.entries (AVLTree.insert_helper size t now key value).2 →
      x ∈ AVLTree.entries t ∨ x = (key, value, now) := by
    intro t size hmem
    have hle := AVLTree.entries_insert_sub t size now key value
    have := Multiset.mem_of_le hle hmem
    rcases Multiset.mem_add.mp this with hm | hm
    · exact Or.inl hm
    · exact Or.inr (Multiset.mem_singleton.mp hm)
  cases hg : c.root.get_node key with
  | some p =>
      rw [put_found c now key value p.1 p.2 (by rw [hg])] at hx
      exact sub1 c.root c.size hx
  | none =>
      by_cases hsz : c.size = c.capacity
      · cases hmin : c.root.min_entry with
        | none =>
            rw [put_new_evict_nomin c now key value hg hsz hmin] at hx
            exact sub1 c.root c.size hx
        | some q =>
            rw [put_new_evict c now key value hg hsz q.1 q.2 (by rw [hmin])] at hx
            rcases sub1 _ _ hx with hm | hm
            · rw [root_remove] at hm
              have hle := AVLTree.entries_remove_sub c.root q.1
              exact Or.inl (Multiset.mem_of_le hle hm)
            · exact Or.inr hm
      · rw [put_new_noevict c now key value hg hsz] at hx
        exact sub1 c.root c.size hx

theorem mem_get_state (c : AVLCache K V) (now : Nat) (key : K)
    (x : K × V × Nat) (hx : x ∈ AVLTree.entries (c.get now key).2.root) :
    x ∈ AVLTree.entries c.root ∨
      ∃ v ts, c.root.get_node key = some (v, ts) ∧ x = (key, v, now) := by
  cases hg : c.root.get_node key with
  | none =>
      rw [get_absent c now key hg] at hx
      exact Or.inl hx
  | some p =>
      obtain ⟨v, ts⟩ := p
      by_cases hfresh : now - ts < c.ttl
      · rw [get_hit c now key v ts hg hfresh] at hx
        dsimp only at hx
        rcases mem_put c now key v x hx with hm | hm
        · exact Or.inl hm
        · exact Or.inr ⟨v, ts, rfl, hm⟩
      · rw [get_expired c now key v ts hg hfresh] at hx
        dsimp only at hx
        rw [root_remove] at hx
        exact Or.inl (Multiset.mem_of_le (AVLTree.entries_remove_sub c.root key) hx)

end AVLCache

/-- Cache coherence: every cached entry agrees with the base string table. -/
def Coherent (s : MemoryStorage) : Prop :=
  ∀ x ∈ AVLTree.entries s.cache.root, s.strings x.1 = some x.2.1

namespace MemoryStorage

theorem get_coherent (s : MemoryStorage) (now : Nat) (key : String)
    (hstack : s.transaction_stack = []) (hcoh : Coherent s) :
    (s.get now key).1 = s.strings (lowercase key) ∧
    (s.get now key).2.strings = s.strings ∧
    (s.get now key).2.lists = s.lists ∧
    (s.get now key).2.transaction_stack = [] ∧
    Coherent (s.get now key).2 := by
  unfold MemoryStorage.get
  rw [hstack]
  dsimp only
  cases hg : s.cache.root.get_node (lowercase key) with
  | some p =>
      obtain ⟨v, ts⟩ := p
      by_cases hfresh : now - ts < s.cache.ttl
      · rw [AVLCache.get_hit s.cache now (lowercase key) v ts hg hfresh]
        dsimp only
        have hmem := AVLTree.get_node_mem s.cache.root (lowercase key) v ts hg
        have hsv := hcoh (lowercase key, v, ts) hmem
        refine ⟨hsv.symm, rfl, rfl, rfl, ?_⟩
        intro x hx
        try dsimp only at hx ⊢
        rcases AVLCache.mem_put s.cache now (lowercase key) v x hx with hm | hm
        · exact hcoh x hm
        · subst hm
          exact hsv
      · rw [AVLCache.get_expired s.cache now (lowercase key) v ts hg hfresh]
        dsimp only
        simp only [List.findSome?_nil]
        dsimp only [Option.orElse]
        cases hb : s.strings (lowercase key) with
        | some w =>
            refine ⟨rfl, rfl, rfl, rfl, ?_⟩
            intro x hx
            try dsimp only at hx ⊢
            rcases AVLCache.mem_put _ now (lowercase key) w x hx with hm | hm
            · rw [AVLCache.root_remove] at hm
              exact hcoh x (Multiset.mem_of_le (AVLTree.entries_remove_sub _ _) hm)
            · subst hm
              exact hb
        | none =>
            refine ⟨rfl, rfl, rfl, rfl, ?_⟩
            intro x hx
            try dsimp only at hx ⊢
            rw [AVLCache.root_remove] at hx
            exact hcoh x (Multiset.mem_of_le (AVLTree.entries_remove_sub _ _) hx)
  | none =>
      rw [AVLCache.get_absent s.cache now (lowercase key) hg]
      dsimp only
      simp only [List.findSome?_nil]
      dsimp only [Option.orElse]
      cases hb : s.strings (lowercase key) with
      | some w =>
          refine ⟨rfl, rfl, rfl, rfl, ?_⟩
          intro x hx
          try dsimp only at hx ⊢
          rcases AVLCache.mem_put s.cache now (lowercase key) w x hx with hm | hm
          · exact hcoh x hm
          · subst hm
            exact hb
      | none =>
          exact ⟨rfl, rfl, rfl, rfl, hcoh⟩

theorem llen_no_tx (s : MemoryStorage) (key : String)
    (hstack : s.transaction_stack = []) :
    s.llen key = ((s.lists (lowercase key)).getD []).length := by
  unfold MemoryStorage.llen
  rw [hstack]
  dsimp only
  simp only [List.findSome?_nil]

end MemoryStorage

/-- The non-transaction command alphabet of the storage engine, with
explicit clock arguments for the cache-touching operations. -/
inductive StoreOp : Type
  | set (now : Nat) (key value : String)
  | get (now : Nat) (key : String)
  | del (key : String)
  | incr (key : String)
  | decr (key : String)
  | lpush (key value : String)
  | rpush (key value : String)
  | lpop (key : String)
  | rpop (key : String)
  | llen (key : String)

namespace MemoryStorage

/-- State transition of one command (return values discarded; `llen` takes
`&self` and never mutates). -/
def apply_op (s : MemoryStorage) : StoreOp → MemoryStorage
  | .set now k v => s.set now k v
  | .get now k => (s.get now k).2
  | .del k => (s.del k).2
  | .incr k => (s.incr k).2
  | .decr k => (s.decr k).2
  | .lpush k v => (s.lpush k v).2
  | .rpush k v => (s.rpush k v).2
  | .lpop k => (s.lpop k).2
  | .rpop k => (s.rpop k).2
  | .llen _ => s

/-- Run a command sequence. -/
def run_ops : MemoryStorage → List StoreOp → MemoryStorage
  | s, [] => s
  | s, op :: ops => run_ops (s.apply_op op) ops

theorem get_state_shape (s : MemoryStorage) (now : Nat) (key : String) :
    ∃ c', (s.get now key).2 = { s with cache := c' } := by
  unfold MemoryStorage.get
  dsimp only
  cases hg : (s.cache.get now (lowercase key)).1 with
  | some v => exact ⟨(s.cache.get now (lowercase key)).2, rfl⟩
  | none =>
      cases hr : (s.transaction_stack.findSome?
          fun layer => (layer.strings (lowercase key)).join).orElse
            fun _ => s.strings (lowercase key) with
      | some v => exact ⟨(s.cache.get now (lowercase key)).2.put now (lowercase key) v, rfl⟩
      | none => exact ⟨(s.cache.get now (lowercase key)).2, rfl⟩

theorem apply_op_in_tx (s : MemoryStorage) (op : StoreOp) (layer : TransactionLayer)
    (rest : List TransactionLayer) (h : s.transaction_stack = layer :: rest) :
    (s.apply_op op).strings = s.strings ∧ (s.apply_op op).lists = s.lists ∧
    ∃ layer2, (s.apply_op op).transaction_stack = layer2 :: rest := by
  cases op with
  | set now k v =>
      simp only [MemoryStorage.apply_op]
      unfold MemoryStorage.set
      rw [h]
      exact ⟨rfl, rfl, _, rfl⟩
  | get now k =>
      obtain ⟨c', hc⟩ := get_state_shape s now k
      simp only [MemoryStorage.apply_op]
      rw [hc]
      exact ⟨rfl, rfl, layer, h⟩
  | del k =>
      simp only [MemoryStorage.apply_op]
      unfold MemoryStorage.del
      rw [h]
      dsimp only
      rw [if_pos rfl]
      exact ⟨rfl, rfl, _, rfl⟩
  | incr k =>
      simp only [MemoryStorage.apply_op]
      unfold MemoryStorage.incr MemoryStorage.get_or_insert_string
      rw [h]
      exact ⟨rfl, rfl, _, rfl⟩
  | decr k =>
      simp only [MemoryStorage.apply_op]
      unfold MemoryStorage.decr MemoryStorage.get_or_insert_string
      rw [h]
      exact ⟨rfl, rfl, _, rfl⟩
  | lpush k v =>
      simp only [MemoryStorage.apply_op]
      unfold MemoryStorage.lpush MemoryStorage.get_or_insert_list
      rw [h]
      exact ⟨rfl, rfl, _, rfl⟩
  | rpush k v =>
      simp only [MemoryStorage.apply_op]
      unfold MemoryStorage.rpush MemoryStorage.get_or_insert_list
      rw [h]
      exact ⟨rfl, rfl, _, rfl⟩
  | lpop k =>
      simp only [MemoryStorage.apply_op]
      unfold MemoryStorage.lpop MemoryStorage.get_or_insert_list
      rw [h]
      dsimp only
      cases hl : (match layer.lists (lowercase k) with
        | some (some l) => l
        | some none => []
        | none =>
            match s.lists (lowercase k) with
            | some l => l
            | none => []) with
      | nil => exact ⟨rfl, rfl, _, rfl⟩
      | cons a b => exact ⟨rfl, rfl, _, rfl⟩
  | rpop k =>
      simp only [MemoryStorage.apply_op]
      unfold MemoryStorage.rpop MemoryStorage.get_or_insert_list
      rw [h]
      dsimp only
      cases hl : (match layer.lists (lowercase k) with
        | some (some l) => l
        | some none => []
        | none =>
            match s.lists (lowercase k) with
            | some l => l
            | none => []).getLast? with
      | none => exact ⟨rfl, rfl, _, rfl⟩
      | some a => exact ⟨rfl, rfl, _, rfl⟩
  | llen k => exact ⟨rfl, rfl, layer, h⟩

theorem run_ops_in_tx (s : MemoryStorage) (ops : List StoreOp) (layer : TransactionLayer)
    (rest : List TransactionLayer) (h : s.transaction_stack = layer :: rest) :
    (run_ops s ops).strings = s.strings ∧ (run_ops s ops).lists = s.lists ∧
    ∃ layer2, (run_ops s ops).transaction_stack = layer2 :: rest := by
  induction ops generalizing s layer with
  | nil => exact ⟨rfl, rfl, layer, h⟩
  | cons op ops ih =>
      obtain ⟨h1, h2, layer1, h3⟩ := apply_op_in_tx s op layer rest h
      obtain ⟨g1, g2, layer2, g3⟩ := ih (s.apply_op op) layer1 h3
      exact ⟨g1.trans h1, g2.trans h2, layer2, g3⟩

end MemoryStorage

/-- Read commands (commands whose results the claim compares). -/
inductive ReadOp : Type
  | get (now : Nat) (key : String)
  | llen (key : String)

/-- A read result: a string lookup or a list length. -/
inductive ReadOut : Type
  | str (o : Option String)
  | len (n : Nat)
deriving DecidableEq

namespace MemoryStorage

/-- The results of a sequence of reads, threading the state (a `get`
mutates the cache). -/
def read_outs : MemoryStorage → List ReadOp → List ReadOut
  | _, [] => []
  | s, ReadOp.get now k :: ops => ReadOut.str (s.get now k).1 :: read_outs (s.get now k).2 ops
  | s, ReadOp.llen k :: ops => ReadOut.len (s.llen k) :: read_outs s ops

theorem read_outs_eq (rs : List ReadOp) : ∀ (s1 s2 : MemoryStorage),
    s1.strings = s2.strings → s1.lists = s2.lists →
    s1.transaction_stack = [] → s2.transaction_stack = [] →
    Coherent s1 → Coherent s2 →
    read_outs s1 rs = read_outs s2 rs := by
  induction rs with
  | nil =>
      intro s1 s2 _ _ _ _ _ _
      rfl
  | cons op ops ih =>
      intro s1 s2 hstr hlst h1 h2 hc1 hc2
      cases op with
      | get now k =>
          obtain ⟨o1, t1, l1, k1, co1⟩ := get_coherent s1 now k h1 hc1
          obtain ⟨o2, t2, l2, k2, co2⟩ := get_coherent s2 now k h2 hc2
          show ReadOut.str (s1.get now k).1 :: read_outs (s1.get now k).2 ops
            = ReadOut.str (s2.get now k).1 :: read_outs (s2.get now k).2 ops
          rw [o1, o2, hstr]
          rw [ih (s1.get now k).2 (s2.get now k).2
            (by rw [t1, t2, hstr]) (by rw [l1, l2, hlst]) k1 k2 co1 co2]
      | llen k =>
          show ReadOut.len (s1.llen k) :: read_outs s1 ops
            = ReadOut.len (s2.llen k) :: read_outs s2 ops
          rw [llen_no_tx s1 k h1, llen_no_tx s2 k h2, hlst]
          rw [ih s1 s2 hstr hlst h1 h2 hc1 hc2]

end MemoryStorage

/-! ## Claim C5 -/

/-- C5, amended: starting from a state with an empty transaction stack,
`start_transaction`, any sequence of non-transaction commands, then
`rollback_transaction` succeeds and leaves the base string and list tables
unchanged and the stack empty; and provided every cache entry of the
starting state agrees with the base string table (in particular whenever
the cache is empty), every subsequent sequence of reads returns exactly the
results it would have returned on the starting state.  (Without the
coherence proviso the base tables are still restored, but a pre-existing
stale cache entry - e.g. left behind by `incr`, which updates the base
table without touching the cache - can make a read differ once the
rollback clears the cache; see the counterexample.) -/
theorem c5_rollback_restores (s : MemoryStorage) (ops : List StoreOp)
    (hstack : s.transaction_stack = []) :
    ∃ s', MemoryStorage.rollback_transaction
        (MemoryStorage.run_ops s.start_transaction ops) = .ok s' ∧
      s'.strings = s.strings ∧ s'.lists = s.lists ∧ s'.transaction_stack = [] ∧
      (Coherent s →
        ∀ rs, MemoryStorage.read_outs s' rs = MemoryStorage.read_outs s rs) := by
  have hst : s.start_transaction.transaction_stack = TransactionLayer.empty :: [] := by
    show TransactionLayer.empty :: s.transaction_stack = _
    rw [hstack]
  obtain ⟨h1, h2, layer2, h3⟩ :=
    MemoryStorage.run_ops_in_tx s.start_transaction ops TransactionLayer.empty [] hst
  set t := MemoryStorage.run_ops s.start_transaction ops with ht
  have hroll : MemoryStorage.rollback_transaction t
      = .ok { t with transaction_stack := [], cache := t.cache.clear } := by
    unfold MemoryStorage.rollback_transaction
    rw [h3]
  refine ⟨_, hroll, ?_, ?_, rfl, ?_⟩
  · show t.strings = s.strings
    rw [h1]
    rfl
  · show t.lists = s.lists
    rw [h2]
    rfl
  · intro hcoh rs
    apply MemoryStorage.read_outs_eq
    · show t.strings = s.strings
      rw [h1]
      rfl
    · show t.lists = s.lists
      rw [h2]
      rfl
    · rfl
    · exact hstack
    · intro x hx
      exact absurd hx (by simp [AVLCache.clear, AVLTree.entries])
    · exact hcoh

/-- C5, counterexample: `set k 1` then `incr k` leaves the base table at
"2" but the cache still holding "1" (incr does not touch the cache), so a
read before an empty transaction returns "1" while the same read after
`start_transaction; rollback_transaction` (which clears the cache) returns
"2" - the claim as stated demands equal results for every starting state
with an empty stack. -/
theorem c5_rollback_counterexample :
    (((MemoryStorage.new.set 0 "k" "1").incr "k").2.transaction_stack.length = 0) ∧
    ((((MemoryStorage.new.set 0 "k" "1").incr "k").2.get 0 "k").1 = some "1") ∧
    ((MemoryStorage.rollback_transaction
        (((MemoryStorage.new.set 0 "k" "1").incr "k").2.start_transaction)).toOption.map
      (fun t => (t.get 0 "k").1)) = some (some "2") ∧
    some "1" ≠ some "2" := by
  decide

/-- C5, witness: the amended theorem applied to a fresh store and a
one-command transaction; the read of an untouched key is unchanged. -/
theorem c5_rollback_restores_witness :
    MemoryStorage.new.transaction_stack = [] ∧
    (∃ s', MemoryStorage.rollback_transaction
        (MemoryStorage.run_ops MemoryStorage.new.start_transaction
          [StoreOp.set 0 "a" "b"]) = .ok s' ∧
      s'.strings = MemoryStorage.new.strings ∧ s'.lists = MemoryStorage.new.lists ∧
      s'.transaction_stack = [] ∧
      (Coherent MemoryStorage.new →
        ∀ rs, MemoryStorage.read_outs s' rs
          = MemoryStorage.read_outs MemoryStorage.new rs)) :=
  ⟨rfl, c5_rollback_restores MemoryStorage.new [StoreOp.set 0 "a" "b"] rfl⟩

namespace AVLTree

variable {K V : Type}

theorem mem_node {k : K} {v : V} {l r : AVLTree K V} {h : Int} {ts : Nat}
    {x : K × V × Nat} :
    x ∈ entries (node k v l r h ts) ↔
      x ∈ entries l ∨ x = (k, v, ts) ∨ x ∈ entries r := by
  show x ∈ entries l + {(k, v, ts)} + entries r ↔ _
  simp [Multiset.mem_add, or_assoc]

variable [LinearOrder K]

theorem ordered_node {k : K} {v : V} {l r : AVLTree K V} {h : Int} {ts : Nat} :
    Ordered (node k v l r h ts) ↔
      ((∀ x ∈ entries l, x.1 < k) ∧ (∀ x ∈ entries r, k < x.1) ∧
        Ordered l ∧ Ordered r) := Iff.rfl

theorem ordered_update_height (t : AVLTree K V) :
    Ordered (update_height t) ↔ Ordered t := by
  cases t <;> exact Iff.rfl

theorem ordered_rotate_left {t : AVLTree K V} (ho : Ordered t) :
    Ordered (rotate_left t) := by
  cases t with
  | nil => exact ho
  | node k v l r h ts =>
      cases r with
      | nil => exact ho
      | node rk rv rl rr rh rts =>
          obtain ⟨hl, hr, hol, hor⟩ := ho
          obtain ⟨hrl, hrr, horl, horr⟩ := hor
          have hkrk : k < rk := hr (rk, rv, rts) (mem_node.mpr (Or.inr (Or.inl rfl)))
          show Ordered (update_height (node rk rv (update_height (node k v l rl h ts)) rr rh rts))
          rw [ordered_update_height]
          refine ⟨?_, hrr, ?_, horr⟩
          · intro x hx
            rw [entries_update_height] at hx
            rcases mem_node.mp hx with hm | hm | hm
            · exact lt_trans (hl x hm) hkrk
            · rw [hm]
              exact hkrk
            · exact hrl x hm
          · rw [ordered_update_height]
            refine ⟨hl, ?_, hol, horl⟩
            intro x hx
            exact hr x (mem_node.mpr (Or.inl hx))

theorem ordered_rotate_right {t : AVLTree K V} (ho : Ordered t) :
    Ordered (rotate_right t) := by
  cases t with
  | nil => exact ho
  | node k v l r h ts =>
      cases l with
      | nil => exact ho
      | node lk lv ll lr lh lts =>
          obtain ⟨hl, hr, hol, hor⟩ := ho
          obtain ⟨hll, hlr, holl, holr⟩ := hol
          have hlkk : lk < k := hl (lk, lv, lts) (mem_node.mpr (Or.inr (Or.inl rfl)))
          show Ordered (update_height (node lk lv ll (update_height (node k v lr r h ts)) lh lts))
          rw [ordered_update_height]
          refine ⟨hll, ?_, holl, ?_⟩
          · intro x hx
            rw [entries_update_height] at hx
            rcases mem_node.mp hx with hm | hm | hm
            · exact hlr x hm
            · rw [hm]
              exact hlkk
            · exact lt_trans hlkk (hr x hm)
          · rw [ordered_update_height]
            refine ⟨?_, hr, holr, hor⟩
            intro x hx
            exact hl x (mem_node.mpr (Or.inr (Or.inr hx)))

theorem ordered_balance {t : AVLTree K V} (ho : Ordered t) :
    Ordered (balance t) := by
  cases t with
  | nil => exact ho
  | node k v l r h ts =>
      obtain ⟨hl, hr, hol, hor⟩ := ho
      simp only [balance, update_height]
      split_ifs with h1 h2 h3 h4
      · refine ordered_rotate_right ?_
        refine ⟨?_, hr, ordered_rotate_left hol, hor⟩
        intro x hx
        rw [entries_rotate_left] at hx
        exact hl x hx
      · exact ordered_rotate_right ⟨hl, hr, hol, hor⟩
      · refine ordered_rotate_left ?_
        refine ⟨hl, ?_, hol, ordered_rotate_right hor⟩
        intro x hx
        rw [entries_rotate_right] at hx
        exact hr x hx
      · exact ordered_rotate_left ⟨hl, hr, hol, hor⟩
      · exact ⟨hl, hr, hol, hor⟩

variable [DecidableEq K]

theorem mem_insert {t : AVLTree K V} {size now : Nat} {key : K} {value : V}
    {x : K × V × Nat}
    (hx : x ∈ entries (insert_helper size t now key value).2) :
    x ∈ entries t ∨ x = (key, value, now) := by
  have hle := entries_insert_sub t size now key value
  rcases Multiset.mem_add.mp (Multiset.mem_of_le hle hx) with hm | hm
  · exact Or.inl hm
  · exact Or.inr (Multiset.mem_singleton.mp hm)

theorem ordered_insert {t : AVLTree K V} (size now : Nat) (key : K) (value : V)
    (ho : Ordered t) : Ordered (insert_helper size t now key value).2 := by
  induction t with
  | nil =>
      refine ⟨?_, ?_, trivial, trivial⟩ <;> intro x hx <;>
        exact absurd hx (by simp [entries])
  | node k v l r h ts ihl ihr =>
      obtain ⟨hl, hr, hol, hor⟩ := ho
      by_cases hk : key = k
      · subst hk
        simp only [insert_helper, if_pos rfl, if_true]
        exact ordered_balance ⟨hl, hr, hol, hor⟩
      · by_cases hlt : key < k
        · simp only [insert_helper, if_neg hk, if_pos hlt]
          refine ordered_balance ⟨?_, hr, ihl hol, hor⟩
          intro x hx
          rcases mem_insert hx with hm | hm
          · exact hl x hm
          · rw [hm]
            exact hlt
        · simp only [insert_helper, if_neg hk, if_neg hlt]
          have hgt : k < key := lt_of_le_of_ne (not_lt.mp hlt) (Ne.symm hk)
          refine ordered_balance ⟨hl, ?_, hol, ihr hor⟩
          intro x hx
          rcases mem_insert hx with hm | hm
          · exact hr x hm
          · rw [hm]
            exact hgt

omit [LinearOrder K] [DecidableEq K] in
theorem remove_min_mem (k : K) (v : V) (l r : AVLTree K V) (h : Int) (ts : Nat) :
    ((remove_min k v l r h ts).2.1, (remove_min k v l r h ts).2.2.1,
      (remove_min k v l r h ts).2.2.2) ∈ entries (node k v l r h ts) := by
  have he := entries_remove_min k v l r h ts
  rw [← he]
  simp

omit [LinearOrder K] [DecidableEq K] in
theorem mem_remove_min {k : K} {v : V} {l r : AVLTree K V} {h : Int} {ts : Nat}
    {x : K × V × Nat} (hx : x ∈ entries (remove_min k v l r h ts).1) :
    x ∈ entries (node k v l r h ts) := by
  have he := entries_remove_min k v l r h ts
  rw [← he]
  exact Multiset.mem_add.mpr (Or.inl hx)

omit [DecidableEq K] in
theorem ordered_remove_min {k : K} {v : V} {l r : AVLTree K V} {h : Int} {ts : Nat}
    (ho : Ordered (node k v l r h ts)) :
    Ordered (remove_min k v l r h ts).1 ∧
      (∀ x ∈ entries (remove_min k v l r h ts).1,
        (remove_min k v l r h ts).2.1 < x.1) := by
  induction l generalizing k v r h ts with
  | nil =>
      obtain ⟨_, hr, _, hor⟩ := ho
      exact ⟨hor, fun x hx => hr x hx⟩
  | node lk lv ll lr lh lts ihl _ =>
      obtain ⟨hl, hr, hol, hor⟩ := ho
      obtain ⟨ih1, ih2⟩ := ihl hol
      have hminmem : ((remove_min lk lv ll lr lh lts).2.1,
          (remove_min lk lv ll lr lh lts).2.2.1,
          (remove_min lk lv ll lr lh lts).2.2.2) ∈ entries (node lk lv ll lr lh lts) :=
        remove_min_mem lk lv ll lr lh lts
      have hmk : (remove_min lk lv ll lr lh lts).2.1 < k :=
        hl _ hminmem
      constructor
      · show Ordered (node k v (remove_min lk lv ll lr lh lts).1 r h ts)
        refine ⟨?_, hr, ih1, hor⟩
        intro x hx
        exact hl x (mem_remove_min hx)
      · intro x hx
        have hx' : x ∈ entries (node k v (remove_min lk lv ll lr lh lts).1 r h ts) := hx
        show (remove_min lk lv ll lr lh lts).2.1 < x.1
        rcases mem_node.mp hx' with hm | hm | hm
        · exact ih2 x hm
        · rw [hm]
          exact hmk
        · exact lt_trans hmk (hr x hm)

theorem ordered_remove {t : AVLTree K V} (key : K) (ho : Ordered t) :
    Ordered (remove_recursive t key).1 := by
  induction t with
  | nil => exact trivial
  | node k v l r h ts ihl ihr =>
      obtain ⟨hl, hr, hol, hor⟩ := ho
      by_cases hk : key = k
      · subst hk
        simp only [remove_recursive, if_pos rfl, if_true]
        cases l with
        | nil =>
            cases r with
            | nil => exact trivial
            | node rk rv rl rr rh rts => exact hor
        | node lk lv ll lr lh lts =>
            cases r with
            | nil => exact hol
            | node rk rv rl rr rh rts =>
                obtain ⟨hm1, hm2⟩ := ordered_remove_min hor
                have hminmem := remove_min_mem rk rv rl rr rh rts
                have hkm : key < (remove_min rk rv rl rr rh rts).2.1 := hr _ hminmem
                show Ordered (balance (node (remove_min rk rv rl rr rh rts).2.1
                  (remove_min rk rv rl rr rh rts).2.2.1 (node lk lv ll lr lh lts)
                  (remove_min rk rv rl rr rh rts).1 h (remove_min rk rv rl rr rh rts).2.2.2))
                refine ordered_balance ⟨?_, ?_, hol, hm1⟩
                · intro x hx
                  exact lt_trans (hl x hx) hkm
                · intro x hx
                  exact hm2 x hx
      · by_cases hlt : key < k
        · simp only [remove_recursive, if_neg hk, if_pos hlt]
          refine ordered_balance ⟨?_, hr, ihl hol, hor⟩
          intro x hx
          exact hl x (Multiset.mem_of_le (entries_remove_sub l key) hx)
        · simp only [remove_recursive, if_neg hk, if_neg hlt]
          refine ordered_balance ⟨hl, ?_, hol, ihr hor⟩
          intro x hx
          exact hr x (Multiset.mem_of_le (entries_remove_sub r key) hx)

theorem get_node_none_not_mem {t : AVLTree K V} {key : K} (ho : Ordered t)
    (hg : get_node t key = none) : ∀ x ∈ entries t, x.1 ≠ key := by
  induction t with
  | nil =>
      intro x hx
      exact absurd hx (by simp [entries])
  | node k v l r h ts ihl ihr =>
      obtain ⟨hl, hr, hol, hor⟩ := ho
      by_cases hk : key = k
      · rw [show get_node (node k v l r h ts) key = some (v, ts) from by
          simp [get_node, if_pos hk]] at hg
        cases hg
      · by_cases hlt : key < k
        · simp only [get_node, if_neg hk, if_pos hlt] at hg
          intro x hx
          rcases mem_node.mp hx with hm | hm | hm
          · exact ihl hol hg x hm
          · rw [hm]
            intro habs
            exact hk (habs.symm ▸ rfl)
          · intro habs
            have := hr x hm
            rw [habs] at this
            exact absurd hlt (not_lt.mpr (le_of_lt this))
        · simp only [get_node, if_neg hk, if_neg hlt] at hg
          have hgt : k < key := lt_of_le_of_ne (not_lt.mp hlt) (Ne.symm hk)
          intro x hx
          rcases mem_node.mp hx with hm | hm | hm
          · intro habs
            have := hl x hm
            rw [habs] at this
            exact absurd this (not_lt.mpr (le_of_lt hgt))
          · rw [hm]
            intro habs
            exact hk (habs.symm ▸ rfl)
          · exact ihr hor hg x hm

theorem get_node_none_of_not_mem {t : AVLTree K V} {key : K} (ho : Ordered t)
    (hnm : ∀ x ∈ entries t, x.1 ≠ key) : get_node t key = none := by
  induction t with
  | nil => rfl
  | node k v l r h ts ihl ihr =>
      obtain ⟨hl, hr, hol, hor⟩ := ho
      have hk : ¬ (key = k) := by
        intro habs
        exact hnm (k, v, ts) (mem_node.mpr (Or.inr (Or.inl rfl))) habs.symm
      by_cases hlt : key < k
      · simp only [get_node, if_neg hk, if_pos hlt]
        exact ihl hol (fun x hx => hnm x (mem_node.mpr (Or.inl hx)))
      · simp only [get_node, if_neg hk, if_neg hlt]
        exact ihr hor (fun x hx => hnm x (mem_node.mpr (Or.inr (Or.inr hx))))

theorem min_entry_found {t : AVLTree K V} (ho : Ordered t) (mk : K) (mv : V)
    (hmin : min_entry t = some (mk, mv)) :
    ∃ ts, get_node t mk = some (mv, ts) := by
  induction t with
  | nil => cases hmin
  | node k v l r h ts ihl ihr =>
      obtain ⟨hl, hr, hol, hor⟩ := ho
      cases hml : min_entry l with
      | none =>
          rw [show min_entry (node k v l r h ts) = some (k, v) from by
            simp [min_entry, hml]] at hmin
          have h12 : (k, v) = (mk, mv) := Option.some_inj.mp hmin
          injection h12 with h1 h2
          subst h1
          subst h2
          exact ⟨ts, by simp [get_node, if_pos rfl]⟩
      | some q =>
          rw [show min_entry (node k v l r h ts) = some q from by
            simp [min_entry, hml]] at hmin
          rw [hmin] at hml
          obtain ⟨ts0, hts0⟩ := ihl hol hml
          have hmem : (mk, mv, ts0) ∈ entries l := get_node_mem l mk mv ts0 hts0
          have hmk : mk < k := hl _ hmem
          refine ⟨ts0, ?_⟩
          simp only [get_node, if_neg (ne_of_lt hmk), if_pos hmk]
          exact hts0

omit [LinearOrder K] [DecidableEq K] in
theorem min_entry_of_ne_nil {t : AVLTree K V} (hne : t ≠ nil) :
    ∃ p, min_entry t = some p := by
  cases t with
  | nil => exact absurd rfl hne
  | node k v l r h ts =>
      cases hml : min_entry l with
      | none => exact ⟨(k, v), by simp [min_entry, hml]⟩
      | some q => exact ⟨q, by simp [min_entry, hml]⟩

end AVLTree

namespace AVLCache

variable {K V : Type} [LinearOrder K] [DecidableEq K]

/-- Data invariant of the cache claimed by the spec (minus the balance
bound): BST-ordered root, `size` counting the stored nodes, and `size`
within `capacity`. -/
def CacheInv (c : AVLCache K V) : Prop :=
  AVLTree.Ordered c.root ∧ c.size = AVLTree.count c.root ∧ c.size ≤ c.capacity

theorem capacity_remove (c : AVLCache K V) (key : K) :
    (c.remove key).2.capacity = c.capacity := by
  unfold AVLCache.remove
  dsimp only
  cases (c.root.remove_recursive key).2 <;> rfl

theorem capacity_put (c : AVLCache K V) (now : Nat) (key : K) (value : V) :
    (c.put now key value).capacity = c.capacity := by
  cases hg : c.root.get_node key with
  | some p =>
      rw [put_found c now key value p.1 p.2 (by rw [hg])]
  | none =>
      by_cases hsz : c.size = c.capacity
      · cases hmin : c.root.min_entry with
        | none => rw [put_new_evict_nomin c now key value hg hsz hmin]
        | some q =>
            rw [put_new_evict c now key value hg hsz q.1 q.2 (by rw [hmin])]
            exact capacity_remove c q.1
      · rw [put_new_noevict c now key value hg hsz]

theorem capacity_get (c : AVLCache K V) (now : Nat) (key : K) :
    (c.get now key).2.capacity = c.capacity := by
  cases hg : c.root.get_node key with
  | none => rw [get_absent c now key hg]
  | some p =>
      by_cases hfresh : now - p.2 < c.ttl
      · rw [get_hit c now key p.1 p.2 (by rw [hg]) hfresh]
        exact capacity_put c now key p.1
      · rw [get_expired c now key p.1 p.2 (by rw [hg]) hfresh]
        exact capacity_remove c key

omit [DecidableEq K] in
theorem inv_clear {c : AVLCache K V} (_h : CacheInv c) : CacheInv c.clear :=
  ⟨trivial, rfl, Nat.zero_le _⟩

theorem inv_remove {c : AVLCache K V} (h : CacheInv c) (key : K) :
    CacheInv (c.remove key).2 := by
  obtain ⟨ho, hc, hle⟩ := h
  cases hg : c.root.get_node key with
  | none =>
      rw [remove_not_found c key hg]
      refine ⟨AVLTree.ordered_remove key ho, ?_, hle⟩
      have he := (AVLTree.entries_remove_none c.root key hg).2
      show c.size = AVLTree.count (c.root.remove_recursive key).1
      rw [AVLTree.count, he, ← AVLTree.count, ← hc]
  | some p =>
      rw [remove_found c key p.1 p.2 (by rw [hg])]
      refine ⟨AVLTree.ordered_remove key ho, ?_, Nat.le_trans (Nat.sub_le _ _) hle⟩
      have he := (AVLTree.entries_remove_get c.root key p.1 p.2 (by rw [hg])).2
      have hcard : AVLTree.count (c.root.remove_recursive key).1 + 1
          = AVLTree.count c.root := by
        have := congrArg Multiset.card he
        simpa [AVLTree.count] using this
      show c.size - 1 = AVLTree.count (c.root.remove_recursive key).1
      omega

theorem inv_put {c : AVLCache K V} (h : CacheInv c) (hcap : 1 ≤ c.capacity)
    (now : Nat) (key : K) (value : V) : CacheInv (c.put now key value) := by
  obtain ⟨ho, hc, hle⟩ := h
  cases hg : c.root.get_node key with
  | some p =>
      rw [put_found c now key value p.1 p.2 (by rw [hg])]
      obtain ⟨hs, he⟩ :=
        AVLTree.entries_insert_found c.root c.size now key value p.1 p.2 (by rw [hg])
      have hcard : AVLTree.count (AVLTree.insert_helper c.size c.root now key value).2 + 1
          = AVLTree.count c.root + 1 := by
        have := congrArg Multiset.card he
        simpa [AVLTree.count] using this
      refine ⟨AVLTree.ordered_insert c.size now key value ho, ?_, ?_⟩
      · show (AVLTree.insert_helper c.size c.root now key value).1
          = AVLTree.count (AVLTree.insert_helper c.size c.root now key value).2
        rw [hs]
        omega
      · show (AVLTree.insert_helper c.size c.root now key value).1 ≤ c.capacity
        rw [hs]
        exact hle
  | none =>
      by_cases hsz : c.size = c.capacity
      · cases hmin : c.root.min_entry with
        | none =>
            exfalso
            have hnil : c.root = AVLTree.nil := by
              by_contra hne
              obtain ⟨q, hq⟩ := AVLTree.min_entry_of_ne_nil hne
              rw [hq] at hmin
              cases hmin
            rw [hnil] at hc
            have : c.size = 0 := hc
            omega
        | some q =>
            obtain ⟨mts, hgetm⟩ := AVLTree.min_entry_found ho q.1 q.2 (by rw [hmin])
            rw [put_new_evict c now key value hg hsz q.1 q.2 (by rw [hmin])]
            rw [remove_found c q.1 q.2 mts hgetm]
            dsimp only
            have hor := AVLTree.ordered_remove q.1 ho
            have he := (AVLTree.entries_remove_get c.root q.1 q.2 mts hgetm).2
            have hcard : AVLTree.count (c.root.remove_recursive q.1).1 + 1
                = AVLTree.count c.root := by
              have := congrArg Multiset.card he
              simpa [AVLTree.count] using this
            have hg2 : (c.root.remove_recursive q.1).1.get_node key = none := by
              refine AVLTree.get_node_none_of_not_mem hor ?_
              intro x hx
              exact AVLTree.get_node_none_not_mem ho hg x
                (Multiset.mem_of_le (AVLTree.entries_remove_sub c.root q.1) hx)
            obtain ⟨hs2, he2⟩ :=
              AVLTree.entries_insert_new (c.root.remove_recursive q.1).1 (c.size - 1)
                now key value hg2
            have hcard2 : AVLTree.count
                (AVLTree.insert_helper (c.size - 1) (c.root.remove_recursive q.1).1
                  now key value).2
                = AVLTree.count (c.root.remove_recursive q.1).1 + 1 := by
              have := congrArg Multiset.card he2
              simpa [AVLTree.count] using this
            refine ⟨AVLTree.ordered_insert (c.size - 1) now key value hor, ?_, ?_⟩
            · show Nat.min (AVLTree.insert_helper (c.size - 1)
                  (c.root.remove_recursive q.1).1 now key value).1 c.capacity
                = AVLTree.count (AVLTree.insert_helper (c.size - 1)
                  (c.root.remove_recursive q.1).1 now key value).2
              have hmn : Nat.min (c.size - 1 + 1) c.capacity = c.size - 1 + 1 := by
                show min (c.size - 1 + 1) c.capacity = c.size - 1 + 1
                exact min_eq_left (by omega)
              rw [hs2, hcard2, hmn]
              omega
            · show Nat.min (AVLTree.insert_helper (c.size - 1)
                  (c.root.remove_recursive q.1).1 now key value).1 c.capacity ≤ c.capacity
              exact Nat.min_le_right _ _
      · rw [put_new_noevict c now key value hg hsz]
        obtain ⟨hs, he⟩ :=
          AVLTree.entries_insert_new c.root c.size now key value hg
        have hcard : AVLTree.count (AVLTree.insert_helper c.size c.root now key value).2
            = AVLTree.count c.root + 1 := by
          have := congrArg Multiset.card he
          simpa [AVLTree.count] using this
        refine ⟨AVLTree.ordered_insert c.size now key value ho, ?_, Nat.min_le_right _ _⟩
        show Nat.min (AVLTree.insert_helper c.size c.root now key value).1 c.capacity
          = AVLTree.count (AVLTree.insert_helper c.size c.root now key value).2
        have hmn : Nat.min (c.size + 1) c.capacity = c.size + 1 := by
          show min (c.size + 1) c.capacity = c.size + 1
          exact min_eq_left (by omega)
        rw [hs, hcard, hmn]
        omega

theorem inv_get {c : AVLCache K V} (h : CacheInv c) (hcap : 1 ≤ c.capacity)
    (now : Nat) (key : K) : CacheInv (c.get now key).2 := by
  cases hg : c.root.get_node key with
  | none =>
      rw [get_absent c now key hg]
      exact h
  | some p =>
      by_cases hfresh : now - p.2 < c.ttl
      · rw [get_hit c now key p.1 p.2 (by rw [hg]) hfresh]
        exact inv_put h hcap now key p.1
      · rw [get_expired c now key p.1 p.2 (by rw [hg]) hfresh]
        exact inv_remove h key

end AVLCache

/-- One driver operation on an `AVLCache`, quantified over in C8. -/
inductive CacheOp (K V : Type) : Type where
  | put (now : Nat) (key : K) (value : V)
  | get (now : Nat) (key : K)
  | remove (key : K)
  | clear
deriving DecidableEq

/-- Apply one `CacheOp` (dropping returned values). -/
def cache_apply {K V : Type} [LinearOrder K] [DecidableEq K]
    (c : AVLCache K V) : CacheOp K V → AVLCache K V
  | .put now key value => c.put now key value
  | .get now key => (c.get now key).2
  | .remove key => (c.remove key).2
  | .clear => c.clear

/-- Run a sequence of `CacheOp`s left to right. -/
def cache_run {K V : Type} [LinearOrder K] [DecidableEq K]
    (c : AVLCache K V) : List (CacheOp K V) → AVLCache K V
  | [] => c
  | op :: ops => cache_run (cache_apply c op) ops

theorem cache_inv_run {K V : Type} [LinearOrder K] [DecidableEq K]
    {c : AVLCache K V} (h : AVLCache.CacheInv c) (hcap : 1 ≤ c.capacity)
    (ops : List (CacheOp K V)) :
    AVLCache.CacheInv (cache_run c ops) ∧ (cache_run c ops).capacity = c.capacity := by
  induction ops generalizing c with
  | nil => exact ⟨h, rfl⟩
  | cons op ops ih =>
      have hstep : AVLCache.CacheInv (cache_apply c op) ∧
          (cache_apply c op).capacity = c.capacity := by
        cases op with
        | put now key value =>
            exact ⟨AVLCache.inv_put h hcap now key value,
              AVLCache.capacity_put c now key value⟩
        | get now key =>
            exact ⟨AVLCache.inv_get h hcap now key, AVLCache.capacity_get c now key⟩
        | remove key =>
            exact ⟨AVLCache.inv_remove h key, AVLCache.capacity_remove c key⟩
        | clear => exact ⟨AVLCache.inv_clear h, rfl⟩
      obtain ⟨h1, h2⟩ := hstep
      obtain ⟨h3, h4⟩ := ih h1 (h2 ▸ hcap)
      exact ⟨h3, h4.trans h2⟩

/-- The operation sequence refuting the balance half of C8: seven `put`s
followed by one `remove` on a cache far below capacity. -/
def c8ops : List (CacheOp Nat Nat) :=
  [.put 0 0 0, .put 0 1 0, .put 0 2 0, .put 0 4 0, .put 0 5 0, .put 0 3 0,
   .put 0 6 0, .remove 2]

/-- C8, counterexample to the balance bound: on a capacity-100 cache the
sequence `put 0,1,2,4,5,3,6; remove 2` leaves a node whose subtree heights
differ by 2 (`remove_min` rebuilds the right spine without rebalancing), so
the claimed height invariant fails while size still counts the 6 nodes. -/
theorem c8_balance_counterexample :
    ((cache_run (AVLCache.new 100 1000000) c8ops).root.well_balanced = false) ∧
    (cache_run (AVLCache.new 100 1000000) c8ops).size = 6 ∧
    AVLTree.count (cache_run (AVLCache.new 100 1000000) c8ops).root = 6 := by
  decide

/-- C8 (amended): for every capacity ≥ 1 and every sequence of `put`, `get`,
`remove`, `clear` operations from a fresh cache, the `size` field equals the
number of stored nodes and never exceeds the capacity.  (The balance half of
the original claim is false, see the counterexample: `remove_min` never
rebalances the path it unlinks.) -/
theorem c8_cache_size_invariant {K V : Type} [LinearOrder K] [DecidableEq K]
    (capacity ttl : Nat) (hcap : 1 ≤ capacity) (ops : List (CacheOp K V)) :
    (cache_run (AVLCache.new capacity ttl) ops).size
        = AVLTree.count (cache_run (AVLCache.new capacity ttl) ops).root ∧
      (cache_run (AVLCache.new capacity ttl) ops).size ≤ capacity := by
  have hinv : AVLCache.CacheInv (AVLCache.new capacity ttl : AVLCache K V) :=
    ⟨trivial, rfl, Nat.zero_le _⟩
  obtain ⟨⟨_, h2, h3⟩, h4⟩ := cache_inv_run hinv hcap ops
  have h5 : (cache_run (AVLCache.new capacity ttl : AVLCache K V) ops).capacity
      = capacity := h4
  exact ⟨h2, le_of_le_of_eq h3 h5⟩

/-- C8, witness: the amended size invariant evaluated after one `put` on a
fresh capacity-2 cache. -/
theorem c8_cache_size_invariant_witness :
    1 ≤ 2 ∧
    ((cache_run (AVLCache.new 2 5) [CacheOp.put 0 1 10] : AVLCache Nat Nat).size
        = AVLTree.count (cache_run (AVLCache.new 2 5)
            [CacheOp.put 0 1 10] : AVLCache Nat Nat).root ∧
      (cache_run (AVLCache.new 2 5) [CacheOp.put 0 1 10] : AVLCache Nat Nat).size ≤ 2) :=
  ⟨by decide, c8_cache_size_invariant 2 5 (by decide) [CacheOp.put 0 1 10]⟩
